import Mathlib

/-!
# package-d math utilities: `factorial`, `is_prime`, `gcd`

A shallow embedding of `src/packages/package-d/src/math_utils.cpp`.

* C++ `int` is a signed 32-bit integer.  Values are carried as `Int` and every
  result of `+`, `*` and `std::abs` is passed through `int_result`, which checks
  the range `INT_MIN .. INT_MAX`.
* Signed overflow is undefined behaviour in C++.  The embedding is parameterised
  by `IntSemantics`: under `strict` an overflow ends the run with
  `Outcome.undefined`; under `wrapping` the value wraps modulo `2^32`
  (two's complement).  Whenever the `strict` run returns a value the `wrapping`
  run returns the same value.
* C++ `unsigned long long` is an unsigned 64-bit integer: a `Nat` reduced
  modulo `2^64` after every multiplication.
* Loops are recursive functions on a fuel counter (one unit per evaluation of
  the loop condition); a loop that has not finished when the fuel is used up
  yields `Outcome.out_of_fuel`.
* `main` of `src/packages/package-d/src/main.cpp` is embedded as the exit status
  together with the array `results`; the text it prints is left out.
-/

namespace package_d

/-- The smallest value of the C++ type `int` (32 bits). -/
def INT_MIN : Int := -2147483648

/-- The largest value of the C++ type `int` (32 bits). -/
def INT_MAX : Int := 2147483647

/-- One more than the largest value of `unsigned long long`: `2^64`. -/
def ULLONG_MODULUS : Nat := 18446744073709551616

/-- The values representable in the C++ type `int`. -/
def in_int (x : Int) : Prop := INT_MIN ≤ x ∧ x ≤ INT_MAX

instance (x : Int) : Decidable (in_int x) := by
  unfold in_int
  infer_instance

/-- How a signed overflow is treated: as undefined behaviour (the C++ standard),
or by two's-complement wraparound. -/
inductive IntSemantics where
  | strict
  | wrapping
  deriving DecidableEq, Repr

/-- What a call of one of the functions produces. -/
inductive Outcome (α : Type) where
  /-- normal return with a value -/
  | returns (v : α)
  /-- `std::invalid_argument` was thrown -/
  | invalid_argument
  /-- undefined behaviour: signed overflow, division by zero, `INT_MIN % -1` -/
  | undefined
  /-- the loop was still running when the fuel ran out -/
  | out_of_fuel
  deriving DecidableEq, Repr

/-- Sequencing: continue with the value of a normal return, pass on anything else. -/
def Outcome.bind {α β : Type} (x : Outcome α) (f : α → Outcome β) : Outcome β :=
  match x with
  | .returns v => f v
  | .invalid_argument => .invalid_argument
  | .undefined => .undefined
  | .out_of_fuel => .out_of_fuel

/-- Two's-complement reduction of a mathematical integer to 32 bits. -/
def wrap_int (x : Int) : Int := (x + 2147483648) % 4294967296 - 2147483648

/-- The `int` result of an arithmetic operation whose exact value is `x`. -/
def int_result (m : IntSemantics) (x : Int) : Outcome Int :=
  if in_int x then .returns x
  else
    match m with
    | .strict => .undefined
    | .wrapping => .returns (wrap_int x)

/-- `a + b` on `int`. -/
def int_add (m : IntSemantics) (a b : Int) : Outcome Int := int_result m (a + b)

/-- `a * b` on `int`. -/
def int_mul (m : IntSemantics) (a b : Int) : Outcome Int := int_result m (a * b)

/-- `std::abs(a)` on `int`. -/
def int_abs (m : IntSemantics) (a : Int) : Outcome Int := int_result m |a|

/-- `a % b` on `int`: the remainder of the division that truncates towards zero.
A zero divisor and `INT_MIN % -1` are undefined. -/
def int_rem (a b : Int) : Outcome Int :=
  if b = 0 then .undefined
  else if a = INT_MIN ∧ b = -1 then .undefined
  else .returns (Int.tmod a b)

/-- Conversion of an `int` to `unsigned long long` (reduction modulo `2^64`). -/
def to_ull (i : Int) : Nat := (i % (ULLONG_MODULUS : Int)).toNat

/-- `x * y` on `unsigned long long`. -/
def ull_mul (x y : Nat) : Nat := (x * y) % ULLONG_MODULUS

/-- The loop `for (...; i <= n; ++i) result *= i;` of `factorial`, entered at the
test of its condition with the current `i` and `result`. -/
def factorial_loop (m : IntSemantics) : Nat → Int → Int → Nat → Outcome Nat
  | 0, _, _, _ => .out_of_fuel
  | fuel + 1, n, i, result =>
    if i ≤ n then
      (int_add m i 1).bind fun i' => factorial_loop m fuel n i' (ull_mul result (to_ull i))
    else .returns result

/-- `unsigned long long factorial(int n)`. -/
def factorial (m : IntSemantics) (fuel : Nat) (n : Int) : Outcome Nat :=
  if n < 0 then .invalid_argument
  else if n = 0 ∨ n = 1 then .returns 1
  else factorial_loop m fuel n 2 1

/-- The loop `for (...; i * i <= n; i += 6)` of `is_prime`, entered at the test
of its condition with the current `i`.  The `||` evaluates `n % (i + 2)` only
when `n % i` is not zero. -/
def is_prime_loop (m : IntSemantics) : Nat → Int → Int → Outcome Bool
  | 0, _, _ => .out_of_fuel
  | fuel + 1, n, i =>
    (int_mul m i i).bind fun sq =>
      if sq ≤ n then
        (int_rem n i).bind fun r1 =>
          if r1 = 0 then .returns false
          else
            (int_add m i 2).bind fun i2 =>
              (int_rem n i2).bind fun r2 =>
                if r2 = 0 then .returns false
                else (int_add m i 6).bind fun i' => is_prime_loop m fuel n i'
      else .returns true

/-- `bool is_prime(int n)`. -/
def is_prime (m : IntSemantics) (fuel : Nat) (n : Int) : Outcome Bool :=
  if n ≤ 1 then .returns false
  else if n ≤ 3 then .returns true
  else if Int.tmod n 2 = 0 ∨ Int.tmod n 3 = 0 then .returns false
  else is_prime_loop m fuel n 5

/-- The loop `while (b != 0) { temp = b; b = a % b; a = temp; }` of `gcd`. -/
def gcd_loop : Nat → Int → Int → Outcome Int
  | 0, _, _ => .out_of_fuel
  | fuel + 1, a, b =>
    if b ≠ 0 then (int_rem a b).bind fun r => gcd_loop fuel b r
    else .returns a

/-- `int gcd(int a, int b)`. -/
def gcd (m : IntSemantics) (fuel : Nat) (a b : Int) : Outcome Int :=
  (int_abs m a).bind fun a' => (int_abs m b).bind fun b' => gcd_loop fuel a' b'


/-! ## Ghost counters, the recursion of the specification, the demo driver -/

/-- The loop of `factorial` with two ghost counters added: it returns, next to `result`,
the value of the counter `i` at the exit and the number of multiplications done so far. -/
def factorial_loop_trace (m : IntSemantics) :
    Nat → Int → Int → Nat → Nat → Outcome (Nat × Int × Nat)
  | 0, _, _, _, _ => .out_of_fuel
  | fuel + 1, n, i, result, mults =>
    if i ≤ n then
      (int_add m i 1).bind fun i' =>
        factorial_loop_trace m fuel n i' (ull_mul result (to_ull i)) (mults + 1)
    else .returns (result, i, mults)

/-- The Euclidean algorithm in the words of the specification, on natural numbers:
replace `(a, b)` with `(b, a mod b)` until `b = 0`, then return `a`. -/
def euclid (a b : Nat) : Nat :=
  if b = 0 then a else euclid b (a % b)
termination_by b
decreasing_by exact Nat.mod_lt _ (Nat.pos_of_ne_zero (by assumption))

/-- One element of the array `results` of the demo driver: the operation, its input or
inputs, and its result. -/
inductive Record where
  | factorial (input : Int) (result : Nat)
  | is_prime (input : Int) (result : Bool)
  | gcd (input_a input_b : Int) (result : Int)
  deriving DecidableEq, Repr

/-- The first loop of `main`: `for (int n : factorial_tests)`.  A thrown exception is
caught by the handler inside the loop, which makes `main` return 1; the other loops of
`main` are run by `rest` on the array built so far. -/
def main_factorial_tests (m : IntSemantics) (fuel : Nat)
    (rest : List Record → Outcome (Int × List Record)) :
    List Int → List Record → Outcome (Int × List Record)
  | [], results => rest results
  | n :: ns, results =>
    match factorial m fuel n with
    | .returns result =>
      main_factorial_tests m fuel rest ns (results ++ [Record.factorial n result])
    | .invalid_argument => .returns (1, results)
    | .undefined => .undefined
    | .out_of_fuel => .out_of_fuel

/-- The second loop of `main`: `for (int n : prime_tests)`.  It has no handler of its
own; an exception would reach the outer handler of `main`, which returns 1. -/
def main_prime_tests (m : IntSemantics) (fuel : Nat)
    (rest : List Record → Outcome (Int × List Record)) :
    List Int → List Record → Outcome (Int × List Record)
  | [], results => rest results
  | n :: ns, results =>
    match is_prime m fuel n with
    | .returns result =>
      main_prime_tests m fuel rest ns (results ++ [Record.is_prime n result])
    | .invalid_argument => .returns (1, results)
    | .undefined => .undefined
    | .out_of_fuel => .out_of_fuel

/-- The third loop of `main`: `for (const auto& [a, b] : gcd_tests)`, with a handler
inside the loop that makes `main` return 1. -/
def main_gcd_tests (m : IntSemantics) (fuel : Nat)
    (rest : List Record → Outcome (Int × List Record)) :
    List (Int × Int) → List Record → Outcome (Int × List Record)
  | [], results => rest results
  | (a, b) :: ps, results =>
    match gcd m fuel a b with
    | .returns result =>
      main_gcd_tests m fuel rest ps (results ++ [Record.gcd a b result])
    | .invalid_argument => .returns (1, results)
    | .undefined => .undefined
    | .out_of_fuel => .out_of_fuel

/-- `int main()` of the demo driver: the exit status and the array `results` at the
exit.  What is written to the output streams is left out. -/
def main (m : IntSemantics) (fuel : Nat) : Outcome (Int × List Record) :=
  main_factorial_tests m fuel
    (main_prime_tests m fuel
      (main_gcd_tests m fuel (fun results => .returns (0, results))
        [(48, 18), (100, 35), (17, 19)])
      [2, 17, 25, 97])
    [5, 10, 12] []

/-! ## Machine arithmetic -/

theorem int_result_of_in_int (m : IntSemantics) (x : Int) (h : in_int x) :
    int_result m x = .returns x := by
  simp [int_result, h]

theorem wrap_int_in_int (x : Int) : in_int (wrap_int x) := by
  unfold in_int wrap_int INT_MIN INT_MAX
  omega

theorem int_result_in_int (m : IntSemantics) (x y : Int) (h : int_result m x = .returns y) :
    in_int y := by
  unfold int_result at h
  split at h
  · cases h; assumption
  · cases m
    · simp at h
    · simp only [Outcome.returns.injEq] at h
      subst h
      exact wrap_int_in_int x

theorem int_result_strict_overflow (x : Int) (h : ¬ in_int x) :
    int_result .strict x = .undefined := by
  simp [int_result, h]

/-- A `strict` result that is a value is that value under `wrapping` too. -/
theorem int_result_strict_wrapping (x y : Int) (h : int_result .strict x = .returns y) :
    int_result .wrapping x = .returns y := by
  unfold int_result at h ⊢
  by_cases hx : in_int x
  · simpa [hx] using h
  · simp [hx] at h

theorem int_rem_eq (a b : Int) (hb : b ≠ 0) (hab : ¬ (a = INT_MIN ∧ b = -1)) :
    int_rem a b = .returns (Int.tmod a b) := by
  simp only [int_rem, hb, hab, if_false]

theorem to_ull_of_nat (j : Nat) (hj : j < ULLONG_MODULUS) : to_ull (j : Int) = j := by
  unfold to_ull
  rw [Int.emod_eq_of_lt (by omega) (by exact_mod_cast hj)]
  simp

@[simp] theorem bind_returns {α β : Type} (v : α) (f : α → Outcome β) :
    (Outcome.returns v).bind f = f v := rfl

@[simp] theorem bind_undefined {α β : Type} (f : α → Outcome β) :
    (Outcome.undefined : Outcome α).bind f = .undefined := rfl

@[simp] theorem bind_out_of_fuel {α β : Type} (f : α → Outcome β) :
    (Outcome.out_of_fuel : Outcome α).bind f = .out_of_fuel := rfl

@[simp] theorem bind_invalid_argument {α β : Type} (f : α → Outcome β) :
    (Outcome.invalid_argument : Outcome α).bind f = .invalid_argument := rfl

/-! ## factorial -/

/-- One iteration of the loop of `factorial` while the counter can still be
incremented without overflow. -/
theorem factorial_loop_step (m : IntSemantics) (fuel : Nat) (n : Int) (j : Nat) (r : Nat)
    (hjn : (j : Int) ≤ n) (hn : n ≤ INT_MAX) :
    factorial_loop m (fuel + 1) n j r =
      if (j : Int) < INT_MAX ∨ m = .wrapping then
        (int_add m j 1).bind fun i' => factorial_loop m fuel n i' ((r * j) % ULLONG_MODULUS)
      else .undefined := by
  have hj : j < ULLONG_MODULUS := by
    unfold INT_MAX at hn
    unfold ULLONG_MODULUS
    omega
  rw [factorial_loop]
  simp only [hjn, if_true, ull_mul, to_ull_of_nat j hj]
  split
  · rfl
  · rename_i h
    push_neg at h
    have hm : m = .strict := by
      cases m
      · rfl
      · exact absurd rfl h.2
    subst hm
    have : ¬ in_int ((j : Int) + 1) := by
      unfold in_int INT_MAX INT_MIN
      unfold INT_MAX at h hn
      omega
    simp [int_add, int_result_strict_overflow _ this]


theorem int_add_one_of_lt (m : IntSemantics) (j : Nat) (h : (j : Int) < INT_MAX) :
    int_add m j 1 = .returns ((j + 1 : Nat) : Int) := by
  unfold int_add
  rw [int_result_of_in_int]
  · simp
  · unfold in_int INT_MIN
    unfold INT_MAX at h ⊢
    omega

/-- Loop invariant of `factorial`: entered with `result = (j-1)! mod 2^64`, the loop
returns `N! mod 2^64`, provided the counter never has to pass `INT_MAX`. -/
theorem factorial_loop_eq (m : IntSemantics) (N : Nat) (hN : (N : Int) < INT_MAX) :
    ∀ (d j fuel : Nat), 1 ≤ j → j + d = N + 1 → d < fuel →
      factorial_loop m fuel N j ((j - 1).factorial % ULLONG_MODULUS)
        = .returns (N.factorial % ULLONG_MODULUS) := by
  intro d
  induction d with
  | zero =>
    intro j fuel _ hjd hfuel
    obtain ⟨f, rfl⟩ : ∃ f, fuel = f + 1 := ⟨fuel - 1, by omega⟩
    have hj : j = N + 1 := by omega
    subst hj
    rw [factorial_loop]
    have : ¬ (((N + 1 : Nat) : Int) ≤ (N : Int)) := by omega
    simp only [this, if_false]
    simp
  | succ d ih =>
    intro j fuel hj1 hjd hfuel
    obtain ⟨f, rfl⟩ : ∃ f, fuel = f + 1 := ⟨fuel - 1, by omega⟩
    have hjN : (j : Int) ≤ (N : Int) := by omega
    have hjmax : (j : Int) < INT_MAX := by omega
    rw [factorial_loop_step m f N j _ hjN (le_of_lt hN)]
    simp only [hjmax, true_or, if_true, int_add_one_of_lt m j hjmax, bind_returns]
    have hacc : ((j - 1).factorial % ULLONG_MODULUS * j) % ULLONG_MODULUS
        = ((j + 1) - 1).factorial % ULLONG_MODULUS := by
      obtain ⟨k, rfl⟩ : ∃ k, j = k + 1 := ⟨j - 1, by omega⟩
      simp only [Nat.add_sub_cancel]
      rw [Nat.factorial_succ, Nat.mod_mul_mod, Nat.mul_comm]
    rw [hacc]
    exact ih (j + 1) f (by omega) (by omega) (by omega)

/-- For every `n` with `0 <= n < INT_MAX`, `factorial(n)` returns `n!` reduced modulo
`2^64`, under either treatment of signed overflow, once the fuel covers the `n`
evaluations of the loop condition. -/
theorem factorial_eq (m : IntSemantics) (fuel : Nat) (n : Int)
    (h0 : 0 ≤ n) (hn : n < INT_MAX) (hf : n.toNat ≤ fuel) :
    factorial m fuel n = .returns (n.toNat.factorial % ULLONG_MODULUS) := by
  obtain ⟨N, rfl⟩ : ∃ N : Nat, n = N := ⟨n.toNat, by omega⟩
  simp only [Int.toNat_ofNat] at hf ⊢
  unfold factorial
  have h1 : ¬ ((N : Int) < 0) := by omega
  simp only [h1, if_false]
  by_cases h01 : (N : Int) = 0 ∨ (N : Int) = 1
  · simp only [h01, if_true]
    rcases h01 with h | h
    · have : N = 0 := by omega
      subst this
      rfl
    · have : N = 1 := by omega
      subst this
      rfl
  · simp only [h01, if_false]
    have h2 : 2 ≤ N := by omega
    have := factorial_loop_eq m N hn (N - 1) 2 fuel (by omega) (by omega) (by omega)
    simpa using this


/-- With `n = INT_MAX` the condition `i <= n` holds for every `int` value of `i`, so the
loop of `factorial` has no exit: it never returns a value. -/
theorem factorial_loop_int_max_no_value (m : IntSemantics) (v : Nat) :
    ∀ (fuel : Nat) (i : Int) (r : Nat), in_int i →
      factorial_loop m fuel INT_MAX i r ≠ .returns v := by
  intro fuel
  induction fuel with
  | zero =>
    intro i r _
    simp [factorial_loop]
  | succ f ih =>
    intro i r hi
    rw [factorial_loop]
    simp only [hi.2, if_true]
    cases hadd : int_add m i 1 with
    | returns i' =>
      simp only [bind_returns]
      exact ih i' _ (int_result_in_int m _ _ hadd)
    | invalid_argument => simp
    | undefined => simp
    | out_of_fuel => simp

/-- Under `strict`, the loop of `factorial` with `n = INT_MAX` reaches `++i` at
`i = INT_MAX`, a signed overflow. -/
theorem factorial_loop_int_max_strict :
    ∀ (d j fuel r : Nat), j + d = 2147483647 → d < fuel →
      factorial_loop .strict fuel INT_MAX j r = .undefined := by
  intro d
  induction d with
  | zero =>
    intro j fuel r hjd hfuel
    obtain ⟨f, rfl⟩ : ∃ f, fuel = f + 1 := ⟨fuel - 1, by omega⟩
    have hj : (j : Int) ≤ INT_MAX := by unfold INT_MAX; omega
    rw [factorial_loop_step .strict f INT_MAX j r hj (le_refl _)]
    have : ¬ ((j : Int) < INT_MAX ∨ IntSemantics.strict = IntSemantics.wrapping) := by
      unfold INT_MAX
      simp
      omega
    simp only [this, if_false]
  | succ d ih =>
    intro j fuel r hjd hfuel
    obtain ⟨f, rfl⟩ : ∃ f, fuel = f + 1 := ⟨fuel - 1, by omega⟩
    have hj : (j : Int) ≤ INT_MAX := by unfold INT_MAX; omega
    have hjlt : (j : Int) < INT_MAX := by unfold INT_MAX; omega
    rw [factorial_loop_step .strict f INT_MAX j r hj (le_refl _)]
    simp only [hjlt, true_or, if_true, int_add_one_of_lt _ j hjlt, bind_returns]
    exact ih (j + 1) f _ (by omega) (by omega)

/-- Under `wrapping`, the loop of `factorial` with `n = INT_MAX` is still running
whatever the amount of fuel. -/
theorem factorial_loop_int_max_wrapping :
    ∀ (fuel : Nat) (i : Int) (r : Nat), in_int i →
      factorial_loop .wrapping fuel INT_MAX i r = .out_of_fuel := by
  intro fuel
  induction fuel with
  | zero =>
    intro i r _
    simp [factorial_loop]
  | succ f ih =>
    intro i r hi
    rw [factorial_loop]
    simp only [hi.2, if_true]
    cases hadd : int_add .wrapping i 1 with
    | returns i' =>
      simp only [bind_returns]
      exact ih i' _ (int_result_in_int _ _ _ hadd)
    | invalid_argument =>
      unfold int_add int_result at hadd
      split at hadd <;> simp at hadd
    | undefined =>
      unfold int_add int_result at hadd
      split at hadd <;> simp at hadd
    | out_of_fuel =>
      unfold int_add int_result at hadd
      split at hadd <;> simp at hadd


/-! ## gcd -/

theorem natAbs_tmod (a b : Int) : (Int.tmod a b).natAbs = a.natAbs % b.natAbs := by
  cases a <;> cases b <;> simp [Int.tmod, Int.natAbs_neg] <;> rfl

theorem int_abs_eq (m : IntSemantics) (a : Int) (ha : in_int a) (hmin : a ≠ INT_MIN) :
    int_abs m a = .returns |a| := by
  unfold int_abs
  apply int_result_of_in_int
  unfold in_int INT_MIN INT_MAX at *
  rcases abs_cases a with ⟨h, _⟩ | ⟨h, _⟩ <;> omega

theorem int_abs_min_strict : int_abs .strict INT_MIN = .undefined := by decide

theorem int_abs_min_wrapping : int_abs .wrapping INT_MIN = .returns INT_MIN := by decide


/-- Loop invariant of `gcd`: the Euclidean loop terminates within `|b| + 1` tests of
its condition, never evaluates an undefined remainder, and returns the greatest
common divisor of its two entry values up to sign. -/
theorem gcd_loop_spec :
    ∀ (fuel : Nat) (a b : Int), in_int a → in_int b →
      (a = INT_MIN → b ≠ -1) → (b = INT_MIN → a ≠ -1) → b.natAbs < fuel →
      ∃ g, gcd_loop fuel a b = .returns g ∧ g.natAbs = Int.gcd a b ∧
        (0 ≤ a → 0 ≤ b → 0 ≤ g) := by
  intro fuel
  induction fuel with
  | zero =>
    intro a b _ _ _ _ hf
    omega
  | succ f ih =>
    intro a b ha hb hab hba hf
    rw [gcd_loop]
    by_cases hb0 : b = 0
    · subst hb0
      refine ⟨a, by simp, by simp, fun h _ => h⟩
    · simp only [ne_eq, hb0, not_false_eq_true, if_true]
      have hrem : int_rem a b = .returns (Int.tmod a b) :=
        int_rem_eq a b hb0 (fun h => hab h.1 h.2)
      rw [hrem, bind_returns]
      have hr : (Int.tmod a b).natAbs = a.natAbs % b.natAbs := natAbs_tmod a b
      have hbpos : 0 < b.natAbs := Int.natAbs_pos.mpr hb0
      have hlt : (Int.tmod a b).natAbs < b.natAbs := by
        rw [hr]
        exact Nat.mod_lt _ hbpos
      have hbabs : b.natAbs ≤ 2147483648 := by
        unfold in_int INT_MIN INT_MAX at hb
        omega
      have hrin : in_int (Int.tmod a b) := by
        unfold in_int INT_MIN INT_MAX
        omega
      have hrmin : Int.tmod a b ≠ INT_MIN := by
        unfold INT_MIN
        omega
      have hbr : b = INT_MIN → Int.tmod a b ≠ -1 := by
        intro hbmin hr1
        have hneg : a < 0 := by
          by_contra hna
          have := Int.tmod_nonneg b (not_lt.mp hna)
          omega
        have h1 : a.natAbs % b.natAbs = 1 := by
          rw [← hr, hr1]
          rfl
        have hb' : b.natAbs = 2147483648 := by
          rw [hbmin]
          rfl
        rw [hb'] at h1
        have haabs : a.natAbs ≤ 2147483648 := by
          unfold in_int INT_MIN INT_MAX at ha
          omega
        have : a = -1 := by omega
        exact hba hbmin this
      obtain ⟨g, hg, hgabs, hgpos⟩ :=
        ih b (Int.tmod a b) hb hrin hbr (fun h => absurd h hrmin) (by omega)
      refine ⟨g, hg, ?_, ?_⟩
      · rw [hgabs]
        unfold Int.gcd
        rw [hr, Nat.gcd_comm a.natAbs, Nat.gcd_rec b.natAbs a.natAbs, Nat.gcd_comm]
      · intro ha0 hb0'
        exact hgpos hb0' (Int.tmod_nonneg b ha0)

/-- When neither argument is `INT_MIN`, `gcd` returns exactly the greatest common
divisor, a non-negative value, with no overflow under either semantics. -/
theorem gcd_eq (m : IntSemantics) (fuel : Nat) (a b : Int)
    (ha : in_int a) (hb : in_int b) (hamin : a ≠ INT_MIN) (hbmin : b ≠ INT_MIN)
    (hf : b.natAbs < fuel) :
    gcd m fuel a b = .returns ((Int.gcd a b : Nat) : Int) := by
  unfold gcd
  rw [int_abs_eq m a ha hamin, int_abs_eq m b hb hbmin]
  simp only [bind_returns]
  have ha' : in_int |a| := by
    unfold in_int INT_MIN INT_MAX at *
    rcases abs_cases a with ⟨h, _⟩ | ⟨h, _⟩ <;> omega
  have hb' : in_int |b| := by
    unfold in_int INT_MIN INT_MAX at *
    rcases abs_cases b with ⟨h, _⟩ | ⟨h, _⟩ <;> omega
  obtain ⟨g, hg, hgabs, hgpos⟩ := gcd_loop_spec fuel |a| |b| ha' hb'
    (fun h => by
      have := abs_nonneg a
      unfold INT_MIN at h
      omega)
    (fun h => by
      have := abs_nonneg b
      unfold INT_MIN at h
      omega)
    (by rw [Int.natAbs_abs]; exact hf)
  rw [hg]
  have h0 : 0 ≤ g := hgpos (abs_nonneg a) (abs_nonneg b)
  have : Int.gcd |a| |b| = Int.gcd a b := by
    unfold Int.gcd
    rw [Int.natAbs_abs, Int.natAbs_abs]
  rw [this] at hgabs
  rw [← hgabs]
  congr 1
  omega

/-- Under `wrapping`, `gcd` returns for every pair of `int` arguments, and the value
returned is the greatest common divisor up to sign. -/
theorem gcd_wrapping_spec (fuel : Nat) (a b : Int)
    (ha : in_int a) (hb : in_int b) (hf : b.natAbs < fuel) :
    ∃ g, gcd .wrapping fuel a b = .returns g ∧ g.natAbs = Int.gcd a b := by
  have key : ∀ x : Int, in_int x → ∃ x', int_abs .wrapping x = .returns x' ∧
      x'.natAbs = x.natAbs ∧ in_int x' ∧ x' ≠ -1 := by
    intro x hx
    by_cases hmin : x = INT_MIN
    · subst hmin
      exact ⟨INT_MIN, int_abs_min_wrapping, rfl, by decide, by decide⟩
    · refine ⟨|x|, int_abs_eq _ x hx hmin, Int.natAbs_abs x, ?_, ?_⟩
      · unfold in_int INT_MIN INT_MAX at *
        rcases abs_cases x with ⟨h, _⟩ | ⟨h, _⟩ <;> omega
      · have := abs_nonneg x
        omega
  obtain ⟨a', ha1, ha2, ha3, ha4⟩ := key a ha
  obtain ⟨b', hb1, hb2, hb3, hb4⟩ := key b hb
  unfold gcd
  rw [ha1, hb1]
  simp only [bind_returns]
  obtain ⟨g, hg, hgabs, _⟩ := gcd_loop_spec fuel a' b' ha3 hb3
    (fun _ => hb4) (fun _ => ha4) (by omega)
  refine ⟨g, hg, ?_⟩
  rw [hgabs]
  unfold Int.gcd
  rw [ha2, hb2]


/-! ## is_prime -/

theorem prime_of_no_small_divisor (n i : Int) (hn : 2 ≤ n) (hi : 0 ≤ i)
    (hP : ∀ d : Int, 2 ≤ d → d < i → ¬ d ∣ n) (hsq : n < i * i) :
    Nat.Prime n.toNat := by
  obtain ⟨N, rfl⟩ : ∃ N : Nat, n = N := ⟨n.toNat, by omega⟩
  obtain ⟨I, rfl⟩ : ∃ I : Nat, i = I := ⟨i.toNat, by omega⟩
  simp only [Int.toNat_ofNat]
  rw [Nat.prime_def_le_sqrt]
  refine ⟨by omega, ?_⟩
  intro k hk2 hksq hkdvd
  have hkk : k * k ≤ N := Nat.le_sqrt.mp hksq
  have hNI : N < I * I := by exact_mod_cast hsq
  have hkI : k < I := by
    by_contra hge
    have hge' : I ≤ k := not_lt.mp hge
    have : I * I ≤ k * k := Nat.mul_le_mul hge' hge'
    omega
  exact hP k (by exact_mod_cast hk2) (by exact_mod_cast hkI) (Int.natCast_dvd_natCast.mpr hkdvd)

theorem not_prime_of_dvd (n d : Int) (h1 : 1 < d) (h2 : d < n) (hd : d ∣ n) :
    ¬ Nat.Prime n.toNat := by
  obtain ⟨N, rfl⟩ : ∃ N : Nat, n = N := ⟨n.toNat, by omega⟩
  obtain ⟨D, rfl⟩ : ∃ D : Nat, d = D := ⟨d.toNat, by omega⟩
  simp only [Int.toNat_ofNat]
  intro hp
  have hD : D ∣ N := Int.natCast_dvd_natCast.mp hd
  rcases (Nat.dvd_prime hp).mp hD with h | h <;> omega

theorem not_dvd_of_prime (n d : Int) (hp : Nat.Prime n.toNat) (h1 : 1 < d) (h2 : d < n) :
    ¬ d ∣ n := fun hd => not_prime_of_dvd n d h1 h2 hd hp

/-- One turn of the 6k±1 wheel: with `i ≡ 5 (mod 6)`, the numbers `i+1`, `i+3`, `i+4`,
`i+5` are multiples of 2 or 3, so `i` and `i+2` are the only candidates in `[i, i+6)`. -/
theorem wheel_step (n i : Int) (h2 : ¬ (2 : Int) ∣ n) (h3 : ¬ (3 : Int) ∣ n)
    (hi : i % 6 = 5) (hP : ∀ d : Int, 2 ≤ d → d < i → ¬ d ∣ n)
    (hd1 : ¬ i ∣ n) (hd2 : ¬ (i + 2) ∣ n) :
    ∀ d : Int, 2 ≤ d → d < i + 6 → ¬ d ∣ n := by
  intro d hd hlt hdvd
  by_cases hdi : d < i
  · exact hP d hd hdi hdvd
  · have hcases : d = i ∨ d = i + 2 ∨ d % 2 = 0 ∨ d % 3 = 0 := by omega
    rcases hcases with h | h | h | h
    · exact hd1 (h ▸ hdvd)
    · exact hd2 (h ▸ hdvd)
    · exact h2 (dvd_trans (Int.dvd_of_emod_eq_zero h) hdvd)
    · exact h3 (dvd_trans (Int.dvd_of_emod_eq_zero h) hdvd)

/-- One iteration of the loop of `is_prime` while `i <= 46337`: no operation overflows
(`46337 * 46337 = 2147117569 <= INT_MAX`) and no remainder is undefined. -/
theorem is_prime_loop_step (m : IntSemantics) (fuel : Nat) (n i : Int)
    (hi5 : 5 ≤ i) (hi : i ≤ 46337) :
    is_prime_loop m (fuel + 1) n i =
      if i * i ≤ n then
        if Int.tmod n i = 0 then .returns false
        else if Int.tmod n (i + 2) = 0 then .returns false
        else is_prime_loop m fuel n (i + 6)
      else .returns true := by
  have hsq : in_int (i * i) := by
    unfold in_int INT_MIN INT_MAX
    constructor <;> nlinarith
  have h2 : in_int (i + 2) := by
    unfold in_int INT_MIN INT_MAX
    omega
  have h6 : in_int (i + 6) := by
    unfold in_int INT_MIN INT_MAX
    omega
  have hr1 : int_rem n i = .returns (Int.tmod n i) :=
    int_rem_eq n i (by omega) (fun h => by omega)
  have hr2 : int_rem n (i + 2) = .returns (Int.tmod n (i + 2)) :=
    int_rem_eq n (i + 2) (by omega) (fun h => by omega)
  rw [is_prime_loop]
  simp only [int_mul, int_add, int_result_of_in_int m _ hsq, int_result_of_in_int m _ h2,
    int_result_of_in_int m _ h6, hr1, hr2, bind_returns]


/-- Loop invariant of `is_prime` on the inputs whose run never reaches `i = 46343`:
every `n` that is composite or below `46337 * 46337 = 2147117569`.  Entered with no
divisor of `n` below `i`, the loop returns whether `n` is prime. -/
theorem is_prime_loop_correct (m : IntSemantics) (n : Int) (hn5 : 5 ≤ n) (hnmax : n ≤ INT_MAX)
    (h2 : ¬ (2 : Int) ∣ n) (h3 : ¬ (3 : Int) ∣ n)
    (hsmall : ¬ (Nat.Prime n.toNat ∧ 2147117569 ≤ n)) :
    ∀ (d : Nat) (i : Int) (fuel : Nat), 5 ≤ i → i % 6 = 5 → i + 6 * d = 46343 → d < fuel →
      (∀ k : Int, 2 ≤ k → k < i → ¬ k ∣ n) → (i = 5 ∨ (i - 6) * (i - 6) ≤ n) →
      is_prime_loop m fuel n i = .returns (decide (Nat.Prime n.toNat)) := by
  intro d
  induction d with
  | zero =>
    intro i fuel _ _ hid _ hP hprev
    exfalso
    have hi : i = 46343 := by omega
    subst hi
    apply hsmall
    constructor
    · apply prime_of_no_small_divisor n 46343 (by omega) (by omega) hP
      unfold INT_MAX at hnmax
      omega
    · omega
  | succ d ih =>
    intro i fuel hi5 hi6 hid hfuel hP hprev
    obtain ⟨f, rfl⟩ : ∃ f, fuel = f + 1 := ⟨fuel - 1, by omega⟩
    rw [is_prime_loop_step m f n i hi5 (by omega)]
    by_cases hsq : i * i ≤ n
    · have hin : i < n := by nlinarith
      simp only [hsq, if_true]
      by_cases hd1 : Int.tmod n i = 0
      · simp only [hd1, if_true]
        have := not_prime_of_dvd n i (by omega) hin (Int.dvd_iff_tmod_eq_zero.mpr hd1)
        simp [this]
      · simp only [hd1, if_false]
        by_cases hd2 : Int.tmod n (i + 2) = 0
        · simp only [hd2, if_true]
          have := not_prime_of_dvd n (i + 2) (by omega) (by nlinarith)
            (Int.dvd_iff_tmod_eq_zero.mpr hd2)
          simp [this]
        · simp only [hd2, if_false]
          apply ih (i + 6) f (by omega) (by omega) (by omega) (by omega)
          · exact wheel_step n i h2 h3 hi6 hP
              (fun h => hd1 (Int.dvd_iff_tmod_eq_zero.mp h))
              (fun h => hd2 (Int.dvd_iff_tmod_eq_zero.mp h))
          · right
            simpa using hsq
    · simp only [hsq, if_false]
      have := prime_of_no_small_divisor n i (by omega) (by omega) hP (not_le.mp hsq)
      simp [this]

/-- Under `strict`, the loop of `is_prime` on a prime `n >= 46337 * 46337` finds no
divisor and reaches `i = 46343`, where `i * i = 2147673649` overflows. -/
theorem is_prime_loop_overflow (n : Int)
    (hp : Nat.Prime n.toNat) (hbig : 2147117569 ≤ n) :
    ∀ (d : Nat) (i : Int) (fuel : Nat), 5 ≤ i → i + 6 * d = 46343 → d < fuel →
      is_prime_loop .strict fuel n i = .undefined := by
  intro d
  induction d with
  | zero =>
    intro i fuel _ hid hfuel
    obtain ⟨f, rfl⟩ : ∃ f, fuel = f + 1 := ⟨fuel - 1, by omega⟩
    have hi : i = 46343 := by omega
    subst hi
    rw [is_prime_loop]
    have : int_mul .strict 46343 46343 = .undefined := by decide
    rw [this, bind_undefined]
  | succ d ih =>
    intro i fuel hi5 hid hfuel
    obtain ⟨f, rfl⟩ : ∃ f, fuel = f + 1 := ⟨fuel - 1, by omega⟩
    rw [is_prime_loop_step .strict f n i hi5 (by omega)]
    have hi : i ≤ 46337 := by omega
    have hsq : i * i ≤ n := by nlinarith
    have hd1 : ¬ Int.tmod n i = 0 := fun h =>
      not_dvd_of_prime n i hp (by omega) (by omega) (Int.dvd_iff_tmod_eq_zero.mpr h)
    have hd2 : ¬ Int.tmod n (i + 2) = 0 := fun h =>
      not_dvd_of_prime n (i + 2) hp (by omega) (by omega) (Int.dvd_iff_tmod_eq_zero.mpr h)
    simp only [hsq, hd1, hd2, if_true, if_false]
    exact ih (i + 6) f (by omega) (by omega) (by omega)


/-- On every `int` that is composite, below 2, or a prime below `46337 * 46337`,
`is_prime` returns whether the number is prime, with no overflow, under either
semantics; 7724 evaluations of the loop condition always suffice. -/
theorem is_prime_correct (m : IntSemantics) (fuel : Nat) (n : Int)
    (hn : n ≤ INT_MAX) (hf : 7723 < fuel)
    (hsmall : ¬ (Nat.Prime n.toNat ∧ 2147117569 ≤ n)) :
    is_prime m fuel n = .returns (decide (Nat.Prime n.toNat)) := by
  unfold is_prime
  by_cases h1 : n ≤ 1
  · simp only [h1, if_true]
    have : ¬ Nat.Prime n.toNat := by
      intro hp
      have := hp.two_le
      omega
    simp [this]
  · simp only [h1, if_false]
    by_cases h3 : n ≤ 3
    · simp only [h3, if_true]
      have hcases : n = 2 ∨ n = 3 := by omega
      rcases hcases with h | h <;> subst h
      · simp [Nat.prime_two]
      · simp [Nat.prime_three]
    · simp only [h3, if_false]
      by_cases hdiv : Int.tmod n 2 = 0 ∨ Int.tmod n 3 = 0
      · simp only [hdiv, if_true]
        have : ¬ Nat.Prime n.toNat := by
          rcases hdiv with h | h
          · exact not_prime_of_dvd n 2 (by omega) (by omega) (Int.dvd_iff_tmod_eq_zero.mpr h)
          · exact not_prime_of_dvd n 3 (by omega) (by omega) (Int.dvd_iff_tmod_eq_zero.mpr h)
        simp [this]
      · simp only [hdiv, if_false]
        push_neg at hdiv
        have hd2 : ¬ (2 : Int) ∣ n := fun h => hdiv.1 (Int.dvd_iff_tmod_eq_zero.mp h)
        have hd3 : ¬ (3 : Int) ∣ n := fun h => hdiv.2 (Int.dvd_iff_tmod_eq_zero.mp h)
        have hn5 : 5 ≤ n := by
          by_contra h
          have : n = 4 := by omega
          subst this
          exact hd2 (by decide)
        apply is_prime_loop_correct m n hn5 hn hd2 hd3 hsmall 7723 5 fuel
          (by omega) (by omega) (by omega) hf
        · intro k hk2 hk5 hk
          have hcases : k = 2 ∨ k = 3 ∨ k = 4 := by omega
          rcases hcases with h | h | h <;> subst h
          · exact hd2 hk
          · exact hd3 hk
          · exact hd2 (dvd_trans (by decide) hk)
        · left
          rfl

/-- Under `strict`, `is_prime` on a prime `n >= 46337 * 46337 = 2147117569` runs into
the signed overflow of `i * i` at `i = 46343`. -/
theorem is_prime_strict_overflow (fuel : Nat) (n : Int) (hf : 7723 < fuel)
    (hp : Nat.Prime n.toNat) (hbig : 2147117569 ≤ n) :
    is_prime .strict fuel n = .undefined := by
  unfold is_prime
  have h1 : ¬ n ≤ 1 := by omega
  have h3 : ¬ n ≤ 3 := by omega
  have hdiv : ¬ (Int.tmod n 2 = 0 ∨ Int.tmod n 3 = 0) := by
    rintro (h | h)
    · exact not_dvd_of_prime n 2 hp (by omega) (by omega) (Int.dvd_iff_tmod_eq_zero.mpr h)
    · exact not_dvd_of_prime n 3 hp (by omega) (by omega) (Int.dvd_iff_tmod_eq_zero.mpr h)
  simp only [h1, h3, hdiv, if_false]
  exact is_prime_loop_overflow n hp hbig 7723 5 fuel (by omega) (by omega) hf

/-- The run of `is_prime` on `INT_MAX` under `strict`, evaluated: 7723 turns of the
loop find no divisor and the 7724th test of the condition overflows. -/
theorem is_prime_int_max_strict_run : is_prime .strict 7724 2147483647 = .undefined := by
  decide!

/-- `INT_MAX = 2^31 - 1` is a prime number. -/
theorem int_max_prime : Nat.Prime 2147483647 := by
  by_contra hnp
  have h := is_prime_correct .strict 7724 2147483647 (by decide) (by decide)
    (fun h => hnp h.1)
  rw [is_prime_int_max_strict_run] at h
  cases h


theorem int_result_wrapping_returns (x : Int) :
    ∃ y, int_result .wrapping x = .returns y ∧ in_int y := by
  unfold int_result
  by_cases h : in_int x
  · exact ⟨x, by simp [h], h⟩
  · exact ⟨wrap_int x, by simp [h], wrap_int_in_int x⟩

/-- With `n = INT_MAX` the condition `i * i <= n` holds for every `int` value of the
product, so the loop of `is_prime` cannot leave through `return true`. -/
theorem is_prime_loop_int_max_not_true (m : IntSemantics) :
    ∀ (fuel : Nat) (i : Int), is_prime_loop m fuel INT_MAX i ≠ .returns true := by
  intro fuel
  induction fuel with
  | zero =>
    intro i
    simp [is_prime_loop]
  | succ f ih =>
    intro i
    rw [is_prime_loop]
    cases hsq : int_mul m i i with
    | returns sq =>
      have hle : sq ≤ INT_MAX := (int_result_in_int m _ _ hsq).2
      simp only [bind_returns, hle, if_true]
      cases hr1 : int_rem INT_MAX i with
      | returns r1 =>
        simp only [bind_returns]
        split
        · simp
        · cases hi2 : int_add m i 2 with
          | returns i2 =>
            simp only [bind_returns]
            cases hr2 : int_rem INT_MAX i2 with
            | returns r2 =>
              simp only [bind_returns]
              split
              · simp
              · cases hi6 : int_add m i 6 with
                | returns i' =>
                  simp only [bind_returns]
                  exact ih i'
                | invalid_argument => simp
                | undefined => simp
                | out_of_fuel => simp
            | invalid_argument => simp
            | undefined => simp
            | out_of_fuel => simp
          | invalid_argument => simp
          | undefined => simp
          | out_of_fuel => simp
      | invalid_argument => simp
      | undefined => simp
      | out_of_fuel => simp
    | invalid_argument => simp
    | undefined => simp
    | out_of_fuel => simp

/-- Under `wrapping`, the loop of `is_prime` on `INT_MAX` runs on past `i = 46343`
and returns `false` no later than `i = 2147483645`, where `i + 2 = INT_MAX`. -/
theorem is_prime_loop_int_max_wrapping :
    ∀ (d : Nat) (i : Int) (fuel : Nat), 5 ≤ i → i + 6 * d = 2147483645 → d < fuel →
      is_prime_loop .wrapping fuel INT_MAX i = .returns false := by
  intro d
  induction d with
  | zero =>
    intro i fuel _ hid hfuel
    obtain ⟨f, rfl⟩ : ∃ f, fuel = f + 1 := ⟨fuel - 1, by omega⟩
    have hi : i = 2147483645 := by omega
    subst hi
    rw [is_prime_loop]
    obtain ⟨sq, hsq, hin⟩ := int_result_wrapping_returns (2147483645 * 2147483645)
    have hle : sq ≤ INT_MAX := hin.2
    simp only [int_mul, hsq, bind_returns, hle, if_true]
    have h1 : int_rem INT_MAX 2147483645 = .returns 2 := by decide
    have h2 : int_add .wrapping 2147483645 2 = .returns 2147483647 := by decide
    have h3 : int_rem INT_MAX 2147483647 = .returns 0 := by decide
    simp [h1, h2, h3]
  | succ d ih =>
    intro i fuel hi5 hid hfuel
    obtain ⟨f, rfl⟩ : ∃ f, fuel = f + 1 := ⟨fuel - 1, by omega⟩
    rw [is_prime_loop]
    obtain ⟨sq, hsq, hin⟩ := int_result_wrapping_returns (i * i)
    have hle : sq ≤ INT_MAX := hin.2
    have hr1 : int_rem INT_MAX i = .returns (Int.tmod INT_MAX i) :=
      int_rem_eq _ i (by omega) (fun h => by omega)
    have hr2 : int_rem INT_MAX (i + 2) = .returns (Int.tmod INT_MAX (i + 2)) :=
      int_rem_eq _ (i + 2) (by omega) (fun h => by omega)
    have h2 : in_int (i + 2) := by
      unfold in_int INT_MIN INT_MAX
      omega
    have h6 : in_int (i + 6) := by
      unfold in_int INT_MIN INT_MAX
      omega
    simp only [int_mul, hsq, bind_returns, hle, if_true, hr1, int_add,
      int_result_of_in_int _ _ h2, hr2, int_result_of_in_int _ _ h6]
    split
    · rfl
    · split
      · rfl
      · exact ih (i + 6) f (by omega) (by omega) (by omega)


theorem factorial_loop_not_invalid_argument (m : IntSemantics) :
    ∀ (fuel : Nat) (n i : Int) (r : Nat),
      factorial_loop m fuel n i r ≠ .invalid_argument := by
  intro fuel
  induction fuel with
  | zero =>
    intro n i r
    simp [factorial_loop]
  | succ f ih =>
    intro n i r
    rw [factorial_loop]
    split
    · cases hadd : int_add m i 1 with
      | returns i' =>
        simp only [bind_returns]
        exact ih n i' _
      | invalid_argument =>
        unfold int_add int_result at hadd
        split at hadd
        · simp at hadd
        · cases m <;> simp at hadd
      | undefined => simp
      | out_of_fuel => simp
    · simp

/-- The exception of `factorial` is thrown exactly on the negative arguments, whatever
the semantics and the fuel. -/
theorem factorial_invalid_argument_iff (m : IntSemantics) (fuel : Nat) (n : Int) :
    factorial m fuel n = .invalid_argument ↔ n < 0 := by
  unfold factorial
  constructor
  · intro h
    by_contra hn
    simp only [hn, if_false] at h
    split at h
    · cases h
    · exact factorial_loop_not_invalid_argument m fuel n 2 1 h
  · intro h
    simp [h]

/-! ## Agreement of the two semantics

A run that meets no undefined behaviour under `strict` is the same run under
`wrapping`. -/

theorem int_result_strict_cases (x : Int) :
    (in_int x ∧ ∀ m, int_result m x = .returns x) ∨
      (¬ in_int x ∧ int_result .strict x = .undefined) := by
  by_cases h : in_int x
  · exact Or.inl ⟨h, fun m => int_result_of_in_int m x h⟩
  · exact Or.inr ⟨h, int_result_strict_overflow x h⟩

theorem factorial_loop_agree :
    ∀ (fuel : Nat) (n i : Int) (r : Nat),
      factorial_loop .strict fuel n i r ≠ .undefined →
      factorial_loop .wrapping fuel n i r = factorial_loop .strict fuel n i r := by
  intro fuel
  induction fuel with
  | zero =>
    intro n i r _
    rfl
  | succ f ih =>
    intro n i r h
    rw [factorial_loop] at h ⊢
    rw [factorial_loop]
    by_cases hin : i ≤ n
    · simp only [hin, if_true] at h ⊢
      rcases int_result_strict_cases (i + 1) with ⟨_, hr⟩ | ⟨_, hr⟩
      · simp only [int_add, hr, bind_returns] at h ⊢
        exact ih n (i + 1) _ h
      · simp [int_add, hr] at h
    · simp only [hin, if_false]

theorem factorial_agree (fuel : Nat) (n : Int)
    (h : factorial .strict fuel n ≠ .undefined) :
    factorial .wrapping fuel n = factorial .strict fuel n := by
  unfold factorial at h ⊢
  split
  · rfl
  · split
    · rfl
    · rename_i h1 h2
      simp only [h1, h2, if_false] at h
      exact factorial_loop_agree fuel n 2 1 h

theorem is_prime_loop_agree :
    ∀ (fuel : Nat) (n i : Int),
      is_prime_loop .strict fuel n i ≠ .undefined →
      is_prime_loop .wrapping fuel n i = is_prime_loop .strict fuel n i := by
  intro fuel
  induction fuel with
  | zero =>
    intro n i _
    rfl
  | succ f ih =>
    intro n i h
    rw [is_prime_loop] at h ⊢
    rw [is_prime_loop]
    rcases int_result_strict_cases (i * i) with ⟨_, hsq⟩ | ⟨_, hsq⟩
    · simp only [int_mul, hsq, bind_returns] at h ⊢
      by_cases hle : i * i ≤ n
      · simp only [hle, if_true] at h ⊢
        cases hr1 : int_rem n i with
        | returns r1 =>
          simp only [hr1, bind_returns] at h ⊢
          by_cases h1 : r1 = 0
          · simp only [h1, if_true]
          · simp only [h1, if_false] at h ⊢
            rcases int_result_strict_cases (i + 2) with ⟨_, hi2⟩ | ⟨_, hi2⟩
            · simp only [int_add, hi2, bind_returns] at h ⊢
              cases hr2 : int_rem n (i + 2) with
              | returns r2 =>
                simp only [hr2, bind_returns] at h ⊢
                by_cases h2 : r2 = 0
                · simp only [h2, if_true]
                · simp only [h2, if_false] at h ⊢
                  rcases int_result_strict_cases (i + 6) with ⟨_, hi6⟩ | ⟨_, hi6⟩
                  · simp only [hi6, bind_returns] at h ⊢
                    exact ih n (i + 6) h
                  · simp [hi6] at h
              | invalid_argument => simp
              | undefined => simp
              | out_of_fuel => simp
            · simp [int_add, hi2] at h
        | invalid_argument => simp
        | undefined => simp
        | out_of_fuel => simp
      · simp only [hle, if_false]
    · simp [int_mul, hsq] at h

theorem is_prime_agree (fuel : Nat) (n : Int)
    (h : is_prime .strict fuel n ≠ .undefined) :
    is_prime .wrapping fuel n = is_prime .strict fuel n := by
  unfold is_prime at h ⊢
  split
  · rfl
  · split
    · rfl
    · split
      · rfl
      · rename_i h1 h2 h3
        simp only [h1, h2, h3, if_false] at h
        exact is_prime_loop_agree fuel n 5 h

theorem gcd_agree (fuel : Nat) (a b : Int)
    (h : gcd .strict fuel a b ≠ .undefined) :
    gcd .wrapping fuel a b = gcd .strict fuel a b := by
  unfold gcd at h ⊢
  rcases int_result_strict_cases |a| with ⟨_, ha⟩ | ⟨_, ha⟩
  · simp only [int_abs, ha, bind_returns] at h ⊢
    rcases int_result_strict_cases |b| with ⟨_, hb⟩ | ⟨_, hb⟩
    · simp only [hb, bind_returns]
    · simp [hb] at h
  · simp [int_abs, ha] at h

/-! ## What holds away from the two ends of `int` -/

/-- When neither argument is `INT_MIN` and not both are zero, the value returned by
`gcd` is positive, divides both arguments, and every common divisor divides it and is
at most it. -/
theorem gcd_greatest (m : IntSemantics) (fuel : Nat) (a b : Int)
    (ha : in_int a) (hb : in_int b) (hamin : a ≠ INT_MIN) (hbmin : b ≠ INT_MIN)
    (hab : ¬ (a = 0 ∧ b = 0)) (hf : b.natAbs < fuel) :
    ∃ g : Int, gcd m fuel a b = .returns g ∧ 0 < g ∧
      Int.tmod a g = 0 ∧ Int.tmod b g = 0 ∧
      ∀ d : Int, d ∣ a → d ∣ b → d ∣ g ∧ d ≤ g := by
  refine ⟨(Int.gcd a b : Nat), gcd_eq m fuel a b ha hb hamin hbmin hf, ?_, ?_, ?_, ?_⟩
  · have : 0 < Int.gcd a b := Int.gcd_pos_iff.mpr (by
      by_contra h
      push_neg at h
      exact hab h)
    exact_mod_cast this
  · exact Int.dvd_iff_tmod_eq_zero.mp (Int.gcd_dvd_left)
  · exact Int.dvd_iff_tmod_eq_zero.mp (Int.gcd_dvd_right)
  · intro d hda hdb
    have hdg : d ∣ ((Int.gcd a b : Nat) : Int) := Int.dvd_gcd hda hdb
    have hpos : (0 : Int) < ((Int.gcd a b : Nat) : Int) := by
      have : 0 < Int.gcd a b := Int.gcd_pos_iff.mpr (by
        by_contra h
        push_neg at h
        exact hab h)
      exact_mod_cast this
    exact ⟨hdg, Int.le_of_dvd hpos hdg⟩

/-- When neither argument is `INT_MIN`, the signs of the arguments do not matter and
the value returned is not negative. -/
theorem gcd_abs (m : IntSemantics) (fuel : Nat) (a b : Int)
    (ha : in_int a) (hb : in_int b) (hamin : a ≠ INT_MIN) (hbmin : b ≠ INT_MIN)
    (hf : b.natAbs < fuel) :
    gcd m fuel a b = gcd m fuel |a| |b| ∧
      ∃ g : Int, gcd m fuel a b = .returns g ∧ 0 ≤ g := by
  have ha' : in_int |a| ∧ |a| ≠ INT_MIN := by
    unfold in_int INT_MIN INT_MAX at *
    rcases abs_cases a with ⟨h, _⟩ | ⟨h, _⟩ <;> omega
  have hb' : in_int |b| ∧ |b| ≠ INT_MIN := by
    unfold in_int INT_MIN INT_MAX at *
    rcases abs_cases b with ⟨h, _⟩ | ⟨h, _⟩ <;> omega
  constructor
  · rw [gcd_eq m fuel a b ha hb hamin hbmin hf,
      gcd_eq m fuel |a| |b| ha'.1 hb'.1 ha'.2 hb'.2 (by rw [Int.natAbs_abs]; exact hf)]
    unfold Int.gcd
    rw [Int.natAbs_abs, Int.natAbs_abs]
  · exact ⟨_, gcd_eq m fuel a b ha hb hamin hbmin hf, Int.ofNat_nonneg _⟩

/-- The zero cases of `gcd` for every `n` other than `INT_MIN`. -/
theorem gcd_zero_cases (m : IntSemantics) (k : Nat) (n : Int)
    (hn : in_int n) (hmin : n ≠ INT_MIN) :
    gcd m (k + 1) 0 0 = .returns 0 ∧
    gcd m (k + 1) n 0 = .returns |n| ∧
    gcd m (k + 2) 0 n = .returns |n| := by
  have h0 : int_abs m 0 = .returns 0 := by cases m <;> rfl
  refine ⟨?_, ?_, ?_⟩
  · unfold gcd
    rw [h0]
    simp [gcd_loop]
  · unfold gcd
    rw [h0, int_abs_eq m n hn hmin]
    simp [gcd_loop]
  · unfold gcd
    rw [h0, int_abs_eq m n hn hmin]
    simp only [bind_returns]
    rw [gcd_loop]
    by_cases hz : |n| = 0
    · simp [hz]
    · have hr : int_rem 0 |n| = .returns 0 := by
        rw [int_rem_eq 0 |n| hz (fun h => by
          unfold INT_MIN at h
          omega)]
        simp
      simp [hz, hr, gcd_loop]

/-- The values asserted by the unit tests and listed in the specification. -/
theorem unit_test_values (m : IntSemantics) :
    factorial m 10 0 = .returns 1 ∧ factorial m 10 1 = .returns 1 ∧
    factorial m 10 5 = .returns 120 ∧ factorial m 10 10 = .returns 3628800 ∧
    is_prime m 2 2 = .returns true ∧ is_prime m 2 3 = .returns true ∧
    is_prime m 2 4 = .returns false ∧ is_prime m 2 17 = .returns true ∧
    is_prime m 2 25 = .returns false ∧ is_prime m 2 97 = .returns true ∧
    is_prime m 2 100 = .returns false ∧
    gcd m 4 12 8 = .returns 4 ∧ gcd m 4 17 5 = .returns 1 ∧
    gcd m 4 100 50 = .returns 50 ∧ gcd m 4 (-12) 8 = .returns 4 ∧
    gcd m 4 48 18 = .returns 6 ∧ gcd m 4 0 0 = .returns 0 := by
  cases m <;> decide

/-- On `INT_MAX` the early returns of `is_prime` do not apply and the loop is entered. -/
theorem is_prime_int_max_unfold (m : IntSemantics) (fuel : Nat) :
    is_prime m fuel 2147483647 = is_prime_loop m fuel INT_MAX 5 := rfl

/-- On `INT_MAX` the early returns of `factorial` do not apply and the loop is entered. -/
theorem factorial_int_max_unfold (m : IntSemantics) (fuel : Nat) :
    factorial m fuel 2147483647 = factorial_loop m fuel INT_MAX 2 1 := rfl

/-! ## The claims -/

/-- Claim C1 (code defect at `n = 2147483647`): `is_prime(n)` is meant to return true
exactly when `n` is prime.  `INT_MAX = 2147483647` is prime (it exceeds 1 and no `d`
with `1 < d < n` divides it), yet `is_prime` never returns true on it: the loop passes
`i = 46337` without a divisor and at `i = 46343` the product `i * i = 2147673649`
overflows `int` (undefined under `strict`); with wraparound the condition
`i * i <= n` stays true until `n % (i + 2) == 0` at `i = 2147483645`, and the function
returns false. -/
theorem is_prime_int_max_defect :
    Nat.Prime 2147483647 ∧
    (∀ d : Int, 1 < d → d < 2147483647 → ¬ d ∣ 2147483647) ∧
    (∀ (m : IntSemantics) (fuel : Nat), is_prime m fuel 2147483647 ≠ .returns true) ∧
    (∀ k : Nat, is_prime .strict (7724 + k) 2147483647 = .undefined) ∧
    (∀ k : Nat, is_prime .wrapping (357913941 + k) 2147483647 = .returns false) := by
  refine ⟨int_max_prime, ?_, ?_, ?_, ?_⟩
  · intro d h1 h2
    exact not_dvd_of_prime 2147483647 d int_max_prime h1 h2
  · intro m fuel
    rw [is_prime_int_max_unfold]
    exact is_prime_loop_int_max_not_true m fuel 5
  · intro k
    exact is_prime_strict_overflow (7724 + k) 2147483647 (by omega) int_max_prime (by decide)
  · intro k
    rw [is_prime_int_max_unfold]
    exact is_prime_loop_int_max_wrapping 357913940 5 (357913941 + k)
      (by decide) (by decide) (by omega)

/-- Claim C2 (code defect at `n = 2147483647`): `factorial(n)` is meant to return a
value for every `n >= 0`.  For `n = INT_MAX` the condition `i <= n` can never fail,
so the call neither returns a value nor throws: it ends in the overflow of `++i`
(`strict`) or loops for ever (`wrapping`). -/
theorem factorial_int_max_no_value :
    ∀ (m : IntSemantics) (fuel : Nat),
      (∀ v : Nat, factorial m fuel 2147483647 ≠ .returns v) ∧
      factorial m fuel 2147483647 ≠ .invalid_argument := by
  intro m fuel
  constructor
  · intro v
    rw [factorial_int_max_unfold]
    exact factorial_loop_int_max_no_value m v fuel 2 1 (by decide)
  · intro h
    have := (factorial_invalid_argument_iff m fuel 2147483647).mp h
    omega

/-- Claim C3: for `0 <= n <= 20`, `factorial(n)` returns exactly `n!`, and `n!` is
below `2^64`, so no product wrapped; this holds under either semantics as soon as the
fuel covers the `n` tests of the loop condition. -/
theorem factorial_exact_up_to_20 (m : IntSemantics) (fuel : Nat) (n : Int)
    (h0 : 0 ≤ n) (h20 : n ≤ 20) (hf : n.toNat ≤ fuel) :
    factorial m fuel n = .returns n.toNat.factorial ∧
      n.toNat.factorial < ULLONG_MODULUS := by
  have hlt : n.toNat.factorial < ULLONG_MODULUS := by
    have hle : n.toNat.factorial ≤ Nat.factorial 20 :=
      Nat.factorial_le (by omega)
    have h20lt : Nat.factorial 20 < ULLONG_MODULUS := by decide
    omega
  refine ⟨?_, hlt⟩
  rw [factorial_eq m fuel n h0 (by unfold INT_MAX; omega) hf, Nat.mod_eq_of_lt hlt]

/-- Witness for `factorial_exact_up_to_20`: `factorial(10) = 3628800`. -/
theorem factorial_exact_up_to_20_witness :
    factorial .strict 10 10 = .returns 3628800 ∧ (3628800 : Nat) < ULLONG_MODULUS :=
  factorial_exact_up_to_20 .strict 10 10 (by decide) (by decide) (by decide)


/-- Claim C4 (code defect at `a = -2147483648`): `gcd(a, b)` is meant to be the largest
positive common divisor.  For `a = INT_MIN`, `b = 6`, `std::abs(a)` overflows
(undefined under `strict`); with wraparound it stays `INT_MIN` and the loop returns
`-2`.  So `2` divides both arguments, and under neither semantics, with no amount of
fuel, does the call return a value that `2` does not exceed. -/
theorem gcd_int_min_six_defect :
    (∀ fuel : Nat, gcd .strict fuel (-2147483648) 6 = .undefined) ∧
    (∀ k : Nat, gcd .wrapping (k + 3) (-2147483648) 6 = .returns (-2)) ∧
    ((2 : Int) ∣ -2147483648 ∧ (2 : Int) ∣ 6) ∧
    (∀ (m : IntSemantics) (fuel : Nat), ¬ ∃ g : Int,
      gcd m fuel (-2147483648) 6 = .returns g ∧ 2 ≤ g) := by
  refine ⟨fun fuel => rfl, fun k => rfl, ⟨by decide, by decide⟩, ?_⟩
  rintro m fuel ⟨g, hg, hle⟩
  cases m with
  | strict =>
    have e : gcd .strict fuel (-2147483648) 6 = .undefined := rfl
    rw [e] at hg
    cases hg
  | wrapping =>
    rcases fuel with _ | _ | _ | k
    · cases hg
    · cases hg
    · cases hg
    · have e : gcd .wrapping (k + 3) (-2147483648) 6 = .returns (-2) := rfl
      rw [e] at hg
      cases hg
      omega

/-- The value of `gcd(INT_MIN, 5)`: undefined under `strict` (overflow of `std::abs`),
and `-1` under `wrapping`, after the remainders `INT_MIN % 5 = -3`, `5 % -3 = 2`,
`-3 % 2 = -1` and `2 % -1 = 0`. -/
theorem gcd_int_min_five_value :
    (∀ fuel : Nat, gcd .strict fuel (-2147483648) 5 = .undefined) ∧
    (∀ k : Nat, gcd .wrapping (k + 5) (-2147483648) 5 = .returns (-1)) :=
  ⟨fun _ => rfl, fun _ => rfl⟩

/-- Claim C5: for all `int` arguments `a` and `b` not both zero, `gcd(a, b)` returns a
non-zero value that divides both: `a mod gcd(a, b) = 0` and `b mod gcd(a, b) = 0`.
Under `wrapping` this holds for every pair, `INT_MIN` included (where the value may be
negative, as in `gcd(INT_MIN, 5) = -1`); under `strict` it holds for every pair
without `INT_MIN`, with a positive value, and with `INT_MIN` the run ends in the
overflow of `std::abs`. -/
theorem gcd_divides_both (fuel : Nat) (a b : Int) (ha : in_int a) (hb : in_int b)
    (hab : ¬ (a = 0 ∧ b = 0)) (hf : b.natAbs < fuel) :
    (∃ g : Int, gcd .wrapping fuel a b = .returns g ∧ g ≠ 0 ∧
      a % g = 0 ∧ b % g = 0 ∧ g ∣ a ∧ g ∣ b) ∧
    (a ≠ INT_MIN → b ≠ INT_MIN →
      ∃ g : Int, gcd .strict fuel a b = .returns g ∧ 0 < g ∧
        a % g = 0 ∧ b % g = 0 ∧ g ∣ a ∧ g ∣ b) := by
  constructor
  · obtain ⟨g, hg, hgabs⟩ := gcd_wrapping_spec fuel a b ha hb hf
    have hpos : 0 < Int.gcd a b := Int.gcd_pos_iff.mpr (by
      by_contra h
      push_neg at h
      exact hab h)
    have hg0 : g ≠ 0 := by
      intro h
      rw [h] at hgabs
      simp at hgabs
      omega
    have hga : g ∣ a := by
      rw [← Int.natAbs_dvd_natAbs, hgabs]
      exact Nat.gcd_dvd_left _ _
    have hgb : g ∣ b := by
      rw [← Int.natAbs_dvd_natAbs, hgabs]
      exact Nat.gcd_dvd_right _ _
    exact ⟨g, hg, hg0, Int.emod_eq_zero_of_dvd hga, Int.emod_eq_zero_of_dvd hgb, hga, hgb⟩
  · intro hamin hbmin
    obtain ⟨g, hg, hpos, hta, htb, _⟩ :=
      gcd_greatest .strict fuel a b ha hb hamin hbmin hab hf
    have hga : g ∣ a := Int.dvd_iff_tmod_eq_zero.mpr hta
    have hgb : g ∣ b := Int.dvd_iff_tmod_eq_zero.mpr htb
    exact ⟨g, hg, hpos, Int.emod_eq_zero_of_dvd hga, Int.emod_eq_zero_of_dvd hgb, hga, hgb⟩

/-- Witness for `gcd_divides_both` at `a = INT_MIN`, `b = 5` with 6 units of fuel. -/
theorem gcd_divides_both_witness :
    in_int (-2147483648) ∧ in_int 5 ∧ ¬ ((-2147483648 : Int) = 0 ∧ (5 : Int) = 0) ∧
    (5 : Int).natAbs < 6 ∧
    ∃ g : Int, gcd .wrapping 6 (-2147483648) 5 = .returns g ∧ g ≠ 0 ∧
      (-2147483648 : Int) % g = 0 ∧ (5 : Int) % g = 0 ∧ g ∣ -2147483648 ∧ g ∣ 5 :=
  ⟨by decide, by decide, by decide, by decide,
    (gcd_divides_both 6 (-2147483648) 5 (by decide) (by decide) (by decide) (by decide)).1⟩

/-- Claim C6 (code defect at `a = -2147483648`): `gcd(a, b)` is meant to equal
`gcd(|a|, |b|)` and be non-negative, the minimum `int` included.  For `a = INT_MIN`,
`b = 0`, `std::abs(a)` overflows (undefined under `strict`); with wraparound the
value returned is `INT_MIN` itself.  So under neither semantics, with no amount of
fuel, does the call return a non-negative value. -/
theorem gcd_int_min_zero_defect :
    (∀ fuel : Nat, gcd .strict fuel (-2147483648) 0 = .undefined) ∧
    (∀ k : Nat, gcd .wrapping (k + 1) (-2147483648) 0 = .returns (-2147483648)) ∧
    (∀ (m : IntSemantics) (fuel : Nat), ¬ ∃ g : Int,
      gcd m fuel (-2147483648) 0 = .returns g ∧ 0 ≤ g) := by
  refine ⟨fun fuel => rfl, fun k => rfl, ?_⟩
  rintro m fuel ⟨g, hg, hle⟩
  cases m with
  | strict =>
    have e : gcd .strict fuel (-2147483648) 0 = .undefined := rfl
    rw [e] at hg
    cases hg
  | wrapping =>
    rcases fuel with _ | k
    · cases hg
    · have e : gcd .wrapping (k + 1) (-2147483648) 0 = .returns (-2147483648) := rfl
      rw [e] at hg
      cases hg
      omega

/-- Claim C7 (code defect at `n = 2147483647`): `factorial(n)` is meant to return
`n!` modulo `2^64` for every `n >= 0`.  For `n = INT_MAX` it returns nothing: under
`strict` the run ends in the overflow of `++i` at `i = INT_MAX`, after 2147483646
tests of the condition; under `wrapping` the counter wraps to `INT_MIN` and the loop
is still running whatever the fuel. -/
theorem factorial_int_max_outcome :
    (∀ k : Nat, factorial .strict (2147483646 + k) 2147483647 = .undefined) ∧
    (∀ fuel : Nat, factorial .wrapping fuel 2147483647 = .out_of_fuel) := by
  constructor
  · intro k
    rw [factorial_int_max_unfold]
    exact factorial_loop_int_max_strict 2147483645 2 (2147483646 + k) 1 (by decide) (by omega)
  · intro fuel
    rw [factorial_int_max_unfold]
    exact factorial_loop_int_max_wrapping fuel 2 1 (by decide)

/-- Claim C8, as stated, fails at `n = 0`: `factorial(0)` returns 1, while
`factorial(0 - 1)` throws, and no value `v` makes `0 × v` equal to 1. -/
theorem factorial_recurrence_fails_at_zero :
    factorial .strict 1 0 = .returns 1 ∧
    factorial .strict 1 (0 - 1) = .invalid_argument ∧
    factorial .wrapping 1 (0 - 1) = .invalid_argument ∧
    ¬ (∃ v : Nat, ull_mul (to_ull 0) v = 1) := by
  refine ⟨by decide, by decide, by decide, ?_⟩
  rintro ⟨v, hv⟩
  simp [ull_mul, to_ull] at hv

/-- Claim C8 (amended): `factorial(0) = 1` and, for every `n` with
`1 <= n < INT_MAX`, `factorial(n - 1)` returns a value `v` and `factorial(n)` returns
`n × v` computed in `unsigned long long`, that is modulo `2^64`. -/
theorem factorial_recurrence (m : IntSemantics) (fuel : Nat) (n : Int)
    (h1 : 1 ≤ n) (hn : n < INT_MAX) (hf : n.toNat ≤ fuel) :
    factorial m fuel 0 = .returns 1 ∧
    ∃ v : Nat, factorial m fuel (n - 1) = .returns v ∧
      factorial m fuel n = .returns (ull_mul (to_ull n) v) := by
  refine ⟨by simp [factorial], (n - 1).toNat.factorial % ULLONG_MODULUS, ?_, ?_⟩
  · exact factorial_eq m fuel (n - 1) (by omega) (by omega) (by omega)
  · rw [factorial_eq m fuel n (by omega) hn hf]
    obtain ⟨N, rfl⟩ : ∃ N : Nat, n = ((N + 1 : Nat) : Int) := ⟨(n - 1).toNat, by omega⟩
    have hN : (N + 1) < ULLONG_MODULUS := by
      unfold INT_MAX at hn
      unfold ULLONG_MODULUS
      omega
    have e1 : (((N + 1 : Nat) : Int) - 1).toNat = N := by omega
    rw [to_ull_of_nat (N + 1) hN, e1, Int.toNat_ofNat, ull_mul, Nat.factorial_succ,
      Nat.mul_mod_mod]

/-- Witness for `factorial_recurrence` at `n = 5`. -/
theorem factorial_recurrence_witness :
    factorial .strict 5 0 = .returns 1 ∧
    ∃ v : Nat, factorial .strict 5 (5 - 1) = .returns v ∧
      factorial .strict 5 5 = .returns (ull_mul (to_ull 5) v) :=
  factorial_recurrence .strict 5 5 (by decide) (by decide) (by decide)

/-- Claim C9 (code defect at `n = -2147483648`): `gcd(n, 0)` and `gcd(0, n)` are meant
to equal `|n|`.  For `n = INT_MIN`, `|n| = 2147483648` is not an `int`: `std::abs(n)`
overflows (undefined under `strict`), and with wraparound both calls return
`-2147483648`.  Under neither semantics, with no amount of fuel, does either call
return `|n|`. -/
theorem gcd_zero_int_min_defect :
    (∀ fuel : Nat, gcd .strict fuel 0 (-2147483648) = .undefined) ∧
    (∀ fuel : Nat, gcd .strict fuel (-2147483648) 0 = .undefined) ∧
    (∀ k : Nat, gcd .wrapping (k + 2) 0 (-2147483648) = .returns (-2147483648)) ∧
    (∀ k : Nat, gcd .wrapping (k + 1) (-2147483648) 0 = .returns (-2147483648)) ∧
    (∀ (m : IntSemantics) (fuel : Nat),
      gcd m fuel 0 (-2147483648) ≠ .returns |(-2147483648 : Int)| ∧
      gcd m fuel (-2147483648) 0 ≠ .returns |(-2147483648 : Int)|) := by
  refine ⟨fun fuel => rfl, fun fuel => rfl, fun k => rfl, fun k => rfl, ?_⟩
  intro m fuel
  have habs : |(-2147483648 : Int)| = 2147483648 := by decide
  rw [habs]
  cases m with
  | strict =>
    have e1 : gcd .strict fuel 0 (-2147483648) = .undefined := rfl
    have e2 : gcd .strict fuel (-2147483648) 0 = .undefined := rfl
    rw [e1, e2]
    exact ⟨(fun h => by cases h), (fun h => by cases h)⟩
  | wrapping =>
    rcases fuel with _ | _ | k
    · exact ⟨(fun h => by cases h), (fun h => by cases h)⟩
    · exact ⟨(fun h => by cases h), (fun h => by cases h)⟩
    · have e1 : gcd .wrapping (k + 2) 0 (-2147483648) = .returns (-2147483648) := rfl
      have e2 : gcd .wrapping (k + 1 + 1) (-2147483648) 0 = .returns (-2147483648) := rfl
      rw [e1, e2]
      exact ⟨(fun h => by cases h), (fun h => by cases h)⟩

/-- Claim C10: for every integer `n <= 1`, `is_prime(n)` returns false; the first test
of the function decides, so neither the semantics nor the fuel matters. -/
theorem is_prime_le_one (m : IntSemantics) (fuel : Nat) (n : Int) (h : n ≤ 1) :
    is_prime m fuel n = .returns false := by
  unfold is_prime
  simp only [h, if_true]

/-- Witness for `is_prime_le_one` at `n = -7`. -/
theorem is_prime_le_one_witness :
    (-7 : Int) ≤ 1 ∧ is_prime .strict 0 (-7) = .returns false :=
  ⟨by decide, is_prime_le_one .strict 0 (-7) (by decide)⟩

/-! ## factorial: size of the results, the loop counter (claims C13, C16, C17) -/

theorem factorial_loop_lt (m : IntSemantics) (v : Nat) :
    ∀ (fuel : Nat) (n i : Int) (r : Nat), r < ULLONG_MODULUS →
      factorial_loop m fuel n i r = .returns v → v < ULLONG_MODULUS := by
  intro fuel
  induction fuel with
  | zero =>
    intro n i r _ h
    simp [factorial_loop] at h
  | succ f ih =>
    intro n i r hr h
    rw [factorial_loop] at h
    split at h
    · cases hadd : int_add m i 1 with
      | returns i' =>
        rw [hadd, bind_returns] at h
        exact ih n i' _ (Nat.mod_lt _ (by decide)) h
      | invalid_argument => rw [hadd] at h; simp at h
      | undefined => rw [hadd] at h; simp at h
      | out_of_fuel => rw [hadd] at h; simp at h
    · cases h
      exact hr

/-- Every value returned by `factorial` is an `unsigned long long`: below `2^64`. -/
theorem factorial_lt (m : IntSemantics) (fuel : Nat) (n : Int) (v : Nat)
    (h : factorial m fuel n = .returns v) : v < ULLONG_MODULUS := by
  unfold factorial at h
  split at h
  · cases h
  · split at h
    · cases h
      decide
    · exact factorial_loop_lt m v fuel n 2 1 (by decide) h

theorem factorial_ge_of_ge_21 (N : Nat) (h : 21 ≤ N) : ULLONG_MODULUS ≤ N.factorial := by
  have h21 : ULLONG_MODULUS ≤ Nat.factorial 21 := by decide
  exact le_trans h21 (Nat.factorial_le h)

/-- Claim C13: `20! < 2^64 <= 21!`, so 20 is the largest argument whose factorial fits
the 64-bit result; for every `n >= 21` no run of `factorial(n)` returns `n!`, and for
`n < INT_MAX` the value it does return, `n! mod 2^64`, differs from `n!`. -/
theorem factorial_differs_from_21 (m : IntSemantics) (fuel : Nat) (n : Int) (h : 21 ≤ n) :
    Nat.factorial 20 < ULLONG_MODULUS ∧ ULLONG_MODULUS ≤ Nat.factorial 21 ∧
    factorial m fuel n ≠ .returns n.toNat.factorial ∧
    (n < INT_MAX → n.toNat ≤ fuel →
      factorial m fuel n = .returns (n.toNat.factorial % ULLONG_MODULUS) ∧
      n.toNat.factorial % ULLONG_MODULUS ≠ n.toNat.factorial) := by
  have hge : ULLONG_MODULUS ≤ n.toNat.factorial := factorial_ge_of_ge_21 n.toNat (by omega)
  refine ⟨by decide, by decide, ?_, ?_⟩
  · intro hret
    have := factorial_lt m fuel n _ hret
    omega
  · intro hn hf
    refine ⟨factorial_eq m fuel n (by omega) hn hf, ?_⟩
    have := Nat.mod_lt n.toNat.factorial (show 0 < ULLONG_MODULUS by decide)
    omega

/-- Witness for `factorial_differs_from_21` at `n = 21`: the value returned is
`21! mod 2^64 = 14197454024290336768`, not `21! = 51090942171709440000`. -/
theorem factorial_differs_from_21_witness :
    factorial .strict 21 21 = .returns 14197454024290336768 ∧
    factorial .strict 21 21 ≠ .returns 51090942171709440000 :=
  have h := factorial_differs_from_21 .strict 21 21 (by decide)
  ⟨(h.2.2.2 (by decide) (by decide)).1, h.2.2.1⟩

/-- From 66 on, `n!` is a multiple of `2^64`, so `factorial(n)` returns 0 for
`66 <= n < INT_MAX`. -/
theorem factorial_zero_from_66 (m : IntSemantics) (fuel : Nat) (n : Int)
    (h66 : 66 ≤ n) (hn : n < INT_MAX) (hf : n.toNat ≤ fuel) :
    factorial m fuel n = .returns 0 := by
  rw [factorial_eq m fuel n (by omega) hn hf]
  have h1 : ULLONG_MODULUS ∣ Nat.factorial 66 := by decide
  have h2 : Nat.factorial 66 ∣ n.toNat.factorial :=
    Nat.factorial_dvd_factorial (by omega)
  rw [Nat.mod_eq_zero_of_dvd (dvd_trans h1 h2)]

/-- Up to 65, `n!` is not a multiple of `2^64`, so `factorial(n)` returns a non-zero
value for `0 <= n <= 65`. -/
theorem factorial_nonzero_to_65 (m : IntSemantics) (fuel : Nat) (n : Int)
    (h0 : 0 ≤ n) (h65 : n ≤ 65) (hf : n.toNat ≤ fuel) :
    ∃ v : Nat, factorial m fuel n = .returns v ∧ v ≠ 0 := by
  refine ⟨_, factorial_eq m fuel n h0 (by unfold INT_MAX; omega) hf, ?_⟩
  have hall : ∀ k : Nat, k < 66 → Nat.factorial k % ULLONG_MODULUS ≠ 0 := by decide
  exact hall n.toNat (by omega)

/-- The ghost counters do not change the result of the loop. -/
theorem factorial_loop_trace_result (m : IntSemantics) :
    ∀ (fuel : Nat) (n i : Int) (r c : Nat),
      factorial_loop m fuel n i r =
        (factorial_loop_trace m fuel n i r c).bind fun t => .returns t.1 := by
  intro fuel
  induction fuel with
  | zero =>
    intro n i r c
    rfl
  | succ f ih =>
    intro n i r c
    rw [factorial_loop, factorial_loop_trace]
    split
    · cases hadd : int_add m i 1 with
      | returns i' =>
        simp only [bind_returns]
        exact ih n i' _ _
      | invalid_argument => rfl
      | undefined => rfl
      | out_of_fuel => rfl
    · rfl

/-- For `n < INT_MAX` the loop of `factorial`, entered at `i = j`, leaves after
`n + 1 - j` multiplications with `i = n + 1`. -/
theorem factorial_loop_trace_eq (m : IntSemantics) (N : Nat) (hN : (N : Int) < INT_MAX) :
    ∀ (d j fuel r c : Nat), j + d = N + 1 → d < fuel →
      ∃ r' : Nat, factorial_loop_trace m fuel N j r c
        = .returns (r', ((N + 1 : Nat) : Int), c + d) := by
  intro d
  induction d with
  | zero =>
    intro j fuel r c hjd hfuel
    obtain ⟨f, rfl⟩ : ∃ f, fuel = f + 1 := ⟨fuel - 1, by omega⟩
    have hj : j = N + 1 := by omega
    subst hj
    rw [factorial_loop_trace]
    have : ¬ (((N + 1 : Nat) : Int) ≤ (N : Int)) := by omega
    simp only [this, if_false]
    exact ⟨r, rfl⟩
  | succ d ih =>
    intro j fuel r c hjd hfuel
    obtain ⟨f, rfl⟩ : ∃ f, fuel = f + 1 := ⟨fuel - 1, by omega⟩
    have hjN : (j : Int) ≤ (N : Int) := by omega
    have hjmax : (j : Int) < INT_MAX := by omega
    rw [factorial_loop_trace]
    simp only [hjN, if_true, int_add_one_of_lt m j hjmax, bind_returns]
    obtain ⟨r', hr'⟩ := ih (j + 1) f (ull_mul r (to_ull j)) (c + 1) (by omega) (by omega)
    refine ⟨r', ?_⟩
    rw [hr']
    congr 3
    omega

/-- For `2 <= n < INT_MAX` the loop of `factorial` ends after exactly `n - 1`
multiplications with the counter at `n + 1`, inside the `int` range. -/
theorem factorial_loop_count (m : IntSemantics) (fuel : Nat) (n : Int)
    (h2 : 2 ≤ n) (hn : n < INT_MAX) (hf : n.toNat ≤ fuel) :
    ∃ r : Nat, factorial_loop_trace m fuel n 2 1 0 = .returns (r, n + 1, (n - 1).toNat) ∧
      in_int (n + 1) := by
  obtain ⟨N, rfl⟩ : ∃ N : Nat, n = N := ⟨n.toNat, by omega⟩
  simp only [Int.toNat_ofNat] at hf
  obtain ⟨r, hr⟩ := factorial_loop_trace_eq m N hn (N - 1) 2 fuel 1 0 (by omega) (by omega)
  refine ⟨r, ?_, ?_⟩
  · have e := hr
    simp only [Nat.cast_ofNat] at e
    rw [e]
    have e1 : ((N + 1 : Nat) : Int) = (N : Int) + 1 := by push_cast; rfl
    have e2 : 0 + (N - 1) = ((N : Int) - 1).toNat := by omega
    rw [e1, e2]
  · unfold in_int INT_MIN
    unfold INT_MAX at hn ⊢
    omega

/-- With `n = INT_MAX` the loop of `factorial`, entered at `i = j`, comes to test its
condition at `i = INT_MAX` after `INT_MAX - j` turns, under either semantics. -/
theorem factorial_loop_int_max_reach (m : IntSemantics) :
    ∀ (d j fuel r : Nat), j + d = 2147483647 →
      ∃ r' : Nat, factorial_loop m (fuel + d) INT_MAX j r
        = factorial_loop m fuel INT_MAX 2147483647 r' := by
  intro d
  induction d with
  | zero =>
    intro j fuel r hjd
    have hj : j = 2147483647 := by omega
    subst hj
    exact ⟨r, rfl⟩
  | succ d ih =>
    intro j fuel r hjd
    have hj : (j : Int) ≤ INT_MAX := by unfold INT_MAX; omega
    have hjlt : (j : Int) < INT_MAX := by unfold INT_MAX; omega
    have e : fuel + (d + 1) = (fuel + d) + 1 := rfl
    rw [e, factorial_loop_step m (fuel + d) INT_MAX j r hj (le_refl _)]
    simp only [hjlt, true_or, if_true, int_add_one_of_lt _ j hjlt, bind_returns]
    exact ih (j + 1) fuel _ (by omega)

/-- Claim C16 (code defect at `n = 2147483647`): the loop of `factorial` is meant to end
after `max(n-1, 0)` multiplications with its counter at `n + 1`, inside the `int`
range, up to `n = INT_MAX`.  For `n = INT_MAX`, `n + 1 = 2147483648` is not an `int`:
the run comes to `i = INT_MAX` with the condition `i <= n` still true, and `++i`
overflows (undefined under `strict`); with wraparound the counter becomes `INT_MIN`
and the loop goes on. -/
theorem factorial_int_max_counter :
    ¬ in_int (2147483647 + 1) ∧
    (∀ (m : IntSemantics) (k : Nat), ∃ r : Nat,
      factorial m (k + 2147483645) 2147483647
        = factorial_loop m k INT_MAX 2147483647 r) ∧
    (∀ (k r : Nat), factorial_loop .strict (k + 1) INT_MAX 2147483647 r = .undefined) ∧
    (∀ (k r : Nat), factorial_loop .wrapping (k + 1) INT_MAX 2147483647 r
        = factorial_loop .wrapping k INT_MAX (-2147483648) (ull_mul r (to_ull 2147483647))) := by
  refine ⟨by decide, ?_, fun k r => rfl, fun k r => rfl⟩
  intro m k
  rw [factorial_int_max_unfold]
  exact factorial_loop_int_max_reach m 2147483645 2 k 1 (by decide)

/-- Claim C17 (code defect at `n = 2147483647`): `factorial(n)` is meant to return 0
for every `n >= 66`.  `2147483647!` is a multiple of `2^64`, yet `factorial(INT_MAX)`
does not return 0: it returns nothing, because its loop has no exit. -/
theorem factorial_int_max_not_zero :
    (66 : Int) ≤ 2147483647 ∧
    ULLONG_MODULUS ∣ Nat.factorial 2147483647 ∧
    (∀ (m : IntSemantics) (fuel : Nat), factorial m fuel 2147483647 ≠ .returns 0) := by
  refine ⟨by decide, ?_, ?_⟩
  · have h1 : ULLONG_MODULUS ∣ Nat.factorial 66 := by decide
    exact dvd_trans h1 (Nat.factorial_dvd_factorial (by decide))
  · intro m fuel
    rw [factorial_int_max_unfold]
    exact factorial_loop_int_max_no_value m 0 fuel 2 1 (by decide)

/-! ## is_prime: the overflow and the wheel (claims C11, C14) -/

/-- On a prime `n >= 46337 * 46337` the loop of `is_prime`, entered at `i`, finds no
divisor and comes to test its condition at `i = 46343`, under either semantics. -/
theorem is_prime_loop_reach (m : IntSemantics) (n : Int)
    (hp : Nat.Prime n.toNat) (hbig : 2147117569 ≤ n) :
    ∀ (d : Nat) (i : Int) (fuel : Nat), 5 ≤ i → i + 6 * d = 46343 →
      is_prime_loop m (fuel + d) n i = is_prime_loop m fuel n 46343 := by
  intro d
  induction d with
  | zero =>
    intro i fuel _ hid
    have hi : i = 46343 := by omega
    subst hi
    rfl
  | succ d ih =>
    intro i fuel hi5 hid
    have e : fuel + (d + 1) = (fuel + d) + 1 := rfl
    rw [e, is_prime_loop_step m (fuel + d) n i hi5 (by omega)]
    have hi : i ≤ 46337 := by omega
    have hsq : i * i ≤ n := by nlinarith
    have hd1 : ¬ Int.tmod n i = 0 := fun h =>
      not_dvd_of_prime n i hp (by omega) (by omega) (Int.dvd_iff_tmod_eq_zero.mpr h)
    have hd2 : ¬ Int.tmod n (i + 2) = 0 := fun h =>
      not_dvd_of_prime n (i + 2) hp (by omega) (by omega) (Int.dvd_iff_tmod_eq_zero.mpr h)
    simp only [hsq, hd1, hd2, if_true, if_false]
    exact ih (i + 6) fuel (by omega) (by omega)

/-- For `n > 3` prime to 6, some wheel candidate (`d >= 5`, `d ≡ 1` or `5 (mod 6)`,
`d * d <= n`) divides `n` exactly when `n` is not prime: the least prime factor of a
composite `n` is such a candidate. -/
theorem wheel_divisor_iff_not_prime (n : Int) (h3 : 3 < n)
    (hd2 : ¬ (2 : Int) ∣ n) (hd3 : ¬ (3 : Int) ∣ n) :
    (∃ d : Int, 5 ≤ d ∧ (d % 6 = 1 ∨ d % 6 = 5) ∧ d * d ≤ n ∧ d ∣ n) ↔
      ¬ Nat.Prime n.toNat := by
  constructor
  · rintro ⟨d, h5, _, hsq, hdvd⟩
    exact not_prime_of_dvd n d (by omega) (by nlinarith) hdvd
  · intro hnp
    obtain ⟨N, rfl⟩ : ∃ N : Nat, n = N := ⟨n.toNat, by omega⟩
    simp only [Int.toNat_ofNat] at hnp
    have hN : 3 < N := by omega
    have hpos : 0 < N := by omega
    have hmp : Nat.Prime N.minFac := Nat.minFac_prime (by omega)
    have hmdvd : N.minFac ∣ N := Nat.minFac_dvd N
    have hmsq : N.minFac ^ 2 ≤ N := Nat.minFac_sq_le_self hpos hnp
    have hmdvdZ : ((N.minFac : Nat) : Int) ∣ (N : Int) := Int.natCast_dvd_natCast.mpr hmdvd
    have hm2 : ¬ (2 : Int) ∣ (N.minFac : Int) := fun h => hd2 (dvd_trans h hmdvdZ)
    have hm3 : ¬ (3 : Int) ∣ (N.minFac : Int) := fun h => hd3 (dvd_trans h hmdvdZ)
    have hm2' : ((N.minFac : Nat) : Int) % 2 ≠ 0 := fun h => hm2 (Int.dvd_of_emod_eq_zero h)
    have hm3' : ((N.minFac : Nat) : Int) % 3 ≠ 0 := fun h => hm3 (Int.dvd_of_emod_eq_zero h)
    have hm1 : 2 ≤ N.minFac := hmp.two_le
    refine ⟨(N.minFac : Int), by omega, by omega, ?_, hmdvdZ⟩
    have : ((N.minFac ^ 2 : Nat) : Int) ≤ (N : Int) := by exact_mod_cast hmsq
    simpa [pow_two] using this

/-- The 6k±1 wheel on every `n > 3` prime to 6 whose run does not reach `i = 46343`:
`is_prime(n)` returns a boolean, false exactly when a wheel candidate `d` with
`d * d <= n` divides `n`. -/
theorem is_prime_wheel (m : IntSemantics) (fuel : Nat) (n : Int)
    (h3 : 3 < n) (hn : n ≤ INT_MAX) (hd2 : Int.tmod n 2 ≠ 0) (hd3 : Int.tmod n 3 ≠ 0)
    (hf : 7723 < fuel) (hsmall : ¬ (Nat.Prime n.toNat ∧ 2147117569 ≤ n)) :
    ∃ b : Bool, is_prime m fuel n = .returns b ∧
      (b = false ↔ ∃ d : Int, 5 ≤ d ∧ (d % 6 = 1 ∨ d % 6 = 5) ∧ d * d ≤ n ∧ d ∣ n) := by
  refine ⟨decide (Nat.Prime n.toNat), is_prime_correct m fuel n hn hf hsmall, ?_⟩
  rw [wheel_divisor_iff_not_prime n h3
    (fun h => hd2 (Int.dvd_iff_tmod_eq_zero.mp h))
    (fun h => hd3 (Int.dvd_iff_tmod_eq_zero.mp h))]
  simp

/-- The bound `i * i <= n` is inclusive: the squares 25 and 49 are reported not prime. -/
theorem is_prime_squares (m : IntSemantics) :
    is_prime m 1 25 = .returns false ∧ is_prime m 1 49 = .returns false := by
  cases m <;> decide

/-- Claim C11 (code defect at `n = 2147483647`): every intermediate value of
`is_prime` is meant to stay inside the `int` range.  On `n = INT_MAX` the run comes,
after 7723 turns of the loop, to `i = 46343`, and the product `i * i = 2147673649`
is outside the range: undefined under `strict`; with wraparound it becomes
`-2147293647`, the condition `i * i <= n` holds again, and the loop goes on. -/
theorem is_prime_int_max_overflow :
    ¬ in_int (46343 * 46343) ∧
    (∀ (m : IntSemantics) (k : Nat),
      is_prime m (k + 7723) 2147483647 = is_prime_loop m k 2147483647 46343) ∧
    (∀ k : Nat, is_prime_loop .strict (k + 1) 2147483647 46343 = .undefined) ∧
    int_mul .wrapping 46343 46343 = .returns (-2147293647) ∧
    (∀ k : Nat, is_prime_loop .wrapping (k + 1) 2147483647 46343
        = is_prime_loop .wrapping k 2147483647 46349) := by
  refine ⟨by decide, ?_, fun k => rfl, by decide, fun k => rfl⟩
  intro m k
  rw [is_prime_int_max_unfold]
  exact is_prime_loop_reach m 2147483647 int_max_prime (by decide) 7723 5 k
    (by decide) (by decide)

/-- Claim C14 (code defect at `n = 2147483647`): for `n > 3` prime to 6, `is_prime(n)`
is meant to return false exactly when a wheel candidate `d` with `d * d <= n` divides
`n`.  `INT_MAX` has no such divisor, yet `is_prime` returns false on it with
wraparound, and under `strict` its run is undefined: under neither semantics does it
return a boolean that is false exactly when such a `d` exists. -/
theorem is_prime_int_max_wheel_defect :
    ((3 : Int) < 2147483647 ∧ Int.tmod 2147483647 2 ≠ 0 ∧ Int.tmod 2147483647 3 ≠ 0) ∧
    (¬ ∃ d : Int, 5 ≤ d ∧ (d % 6 = 1 ∨ d % 6 = 5) ∧ d * d ≤ 2147483647 ∧
      d ∣ 2147483647) ∧
    (∀ k : Nat, is_prime .wrapping (k + 357913941) 2147483647 = .returns false) ∧
    (∀ (m : IntSemantics) (fuel : Nat), ¬ ∃ b : Bool,
      is_prime m fuel 2147483647 = .returns b ∧
      (b = false ↔ ∃ d : Int, 5 ≤ d ∧ (d % 6 = 1 ∨ d % 6 = 5) ∧ d * d ≤ 2147483647 ∧
        d ∣ 2147483647)) := by
  have hno : ¬ ∃ d : Int, 5 ≤ d ∧ (d % 6 = 1 ∨ d % 6 = 5) ∧ d * d ≤ 2147483647 ∧
      d ∣ 2147483647 := by
    rintro ⟨d, h5, _, hsq, hdvd⟩
    exact not_dvd_of_prime 2147483647 d int_max_prime (by omega) (by nlinarith) hdvd
  refine ⟨⟨by decide, by decide, by decide⟩, hno, ?_, ?_⟩
  · intro k
    rw [is_prime_int_max_unfold]
    exact is_prime_loop_int_max_wrapping 357913940 5 (k + 357913941)
      (by decide) (by decide) (by omega)
  · rintro m fuel ⟨b, hb, hiff⟩
    cases b with
    | false => exact hno (hiff.mp rfl)
    | true =>
      rw [is_prime_int_max_unfold] at hb
      exact is_prime_loop_int_max_not_true m fuel 5 hb

/-! ## gcd: termination, the Euclidean recursion, commutativity (claims C12, C15, C18) -/

theorem euclid_eq_gcd : ∀ (b a : Nat), euclid a b = Nat.gcd a b := by
  intro b
  induction b using Nat.strong_induction_on with
  | _ b ih =>
    intro a
    rw [euclid]
    split
    · rename_i h
      subst h
      simp
    · rename_i h
      rw [ih (a % b) (Nat.mod_lt _ (Nat.pos_of_ne_zero h)) b, Nat.gcd_comm a b,
        Nat.gcd_rec b a, Nat.gcd_comm]

/-- A run of the loop of `gcd` that has returned returns the same with more fuel. -/
theorem gcd_loop_mono :
    ∀ (f : Nat) (x y g : Int), gcd_loop f x y = .returns g →
      gcd_loop (f + 1) x y = .returns g := by
  intro f
  induction f with
  | zero =>
    intro x y g h
    simp [gcd_loop] at h
  | succ f ih =>
    intro x y g h
    rw [gcd_loop] at h ⊢
    by_cases hy : y = 0
    · simpa [hy] using h
    · simp only [ne_eq, hy, not_false_eq_true, if_true] at h ⊢
      cases hr : int_rem x y with
      | returns r =>
        rw [hr] at h
        simp only [bind_returns] at h ⊢
        exact ih y r g h
      | invalid_argument => rw [hr] at h; simp at h
      | undefined => rw [hr] at h; simp at h
      | out_of_fuel => rw [hr] at h; simp at h

/-- One turn of the loop of `gcd`: with `b != 0` the state `(a, b)` becomes
`(b, a % b)`, and the new second component is smaller in absolute value. -/
theorem gcd_loop_turn (k : Nat) (x y : Int) (hy : y ≠ 0) (hxy : ¬ (x = INT_MIN ∧ y = -1)) :
    gcd_loop (k + 1) x y = gcd_loop k y (Int.tmod x y) ∧
      (Int.tmod x y).natAbs < y.natAbs := by
  constructor
  · rw [gcd_loop]
    simp only [ne_eq, hy, not_false_eq_true, if_true, int_rem_eq x y hy hxy, bind_returns]
  · rw [natAbs_tmod]
    exact Nat.mod_lt _ (Int.natAbs_pos.mpr hy)

/-- With `b = 0` the loop of `gcd` returns `a` and evaluates no remainder. -/
theorem gcd_loop_exit (k : Nat) (x : Int) : gcd_loop (k + 1) x 0 = .returns x := by
  rw [gcd_loop]
  simp

/-- Under `strict`, `gcd` with an argument `INT_MIN` ends in the overflow of `std::abs`
before the loop is entered. -/
theorem gcd_strict_int_min (fuel : Nat) (a b : Int) (ha : in_int a)
    (h : a = INT_MIN ∨ b = INT_MIN) : gcd .strict fuel a b = .undefined := by
  unfold gcd
  by_cases hamin : a = INT_MIN
  · rw [hamin, int_abs_min_strict, bind_undefined]
  · have hb : b = INT_MIN := h.resolve_left hamin
    rw [int_abs_eq .strict a ha hamin, bind_returns, hb, int_abs_min_strict, bind_undefined]

/-- Away from `INT_MIN`, `gcd` computes the Euclidean recursion of the specification
on the absolute values of its arguments. -/
theorem gcd_refines_euclid (m : IntSemantics) (fuel : Nat) (a b : Int)
    (ha : in_int a) (hb : in_int b) (hamin : a ≠ INT_MIN) (hbmin : b ≠ INT_MIN)
    (hf : b.natAbs < fuel) :
    gcd m fuel a b = .returns ((euclid a.natAbs b.natAbs : Nat) : Int) := by
  rw [gcd_eq m fuel a b ha hb hamin hbmin hf, euclid_eq_gcd]
  rfl

/-- Away from `INT_MIN`, the two equations of the Euclidean recursion hold for `gcd`:
`gcd(a, b) = gcd(|b|, |a| mod |b|)` when `b != 0`, and `gcd(a, 0) = |a|`. -/
theorem gcd_euclid_step (m : IntSemantics) (fuel : Nat) (a b : Int)
    (ha : in_int a) (hb : in_int b) (hamin : a ≠ INT_MIN) (hbmin : b ≠ INT_MIN)
    (hf : b.natAbs < fuel) :
    (b ≠ 0 → gcd m fuel a b = gcd m fuel |b| (|a| % |b|)) ∧
    gcd m (fuel + 1) a 0 = .returns |a| := by
  constructor
  · intro hb0
    have hb' : in_int |b| ∧ |b| ≠ INT_MIN ∧ 0 < |b| := by
      unfold in_int INT_MIN INT_MAX at *
      rcases abs_cases b with ⟨h, _⟩ | ⟨h, _⟩ <;> omega
    have habs : 0 ≤ |a| := abs_nonneg a
    have hr0 : 0 ≤ |a| % |b| := Int.emod_nonneg _ (by omega)
    have hrlt : |a| % |b| < |b| := Int.emod_lt_of_pos _ hb'.2.2
    have hr : in_int (|a| % |b|) ∧ |a| % |b| ≠ INT_MIN := by
      unfold in_int INT_MIN INT_MAX at *
      omega
    have hbabs : |b|.natAbs = b.natAbs := Int.natAbs_abs b
    rw [gcd_eq m fuel a b ha hb hamin hbmin hf,
      gcd_eq m fuel |b| (|a| % |b|) hb'.1 hr.1 hb'.2.1 hr.2 (by omega)]
    congr 2
    unfold Int.gcd
    have e : (|a| % |b|).natAbs = a.natAbs % b.natAbs := by
      have h1 : |a| % |b| = ((a.natAbs % b.natAbs : Nat) : Int) := by
        rw [Int.abs_eq_natAbs a, Int.abs_eq_natAbs b]
        norm_cast
      rw [h1]
      rfl
    rw [hbabs, e, Nat.gcd_comm a.natAbs, Nat.gcd_rec b.natAbs a.natAbs, Nat.gcd_comm]
  · exact (gcd_zero_cases m fuel a ha hamin).2.1

/-- Under `wrapping`, with `a = INT_MIN` the two orders of the arguments give the same
run from the second test of the condition on: `(|b|, INT_MIN)` becomes `(INT_MIN, |b|)`. -/
theorem gcd_wrapping_int_min_swap (fuel : Nat) (b : Int) (hb : in_int b)
    (hbmin : b ≠ INT_MIN) (hf : 2147483648 < fuel) :
    gcd .wrapping fuel b INT_MIN = gcd .wrapping fuel INT_MIN b := by
  obtain ⟨f, rfl⟩ : ∃ f, fuel = f + 1 := ⟨fuel - 1, by omega⟩
  have hb' : in_int |b| ∧ 0 ≤ |b| ∧ |b| < 2147483648 := by
    unfold in_int INT_MIN INT_MAX at *
    rcases abs_cases b with ⟨h, _⟩ | ⟨h, _⟩ <;> omega
  have hmin0 : INT_MIN ≠ 0 := by decide
  have htmod : Int.tmod |b| INT_MIN = |b| := by
    unfold INT_MIN
    rw [Int.tmod_neg]
    exact Int.tmod_eq_of_lt hb'.2.1 hb'.2.2
  unfold gcd
  rw [int_abs_eq .wrapping b hb hbmin, int_abs_min_wrapping]
  simp only [bind_returns]
  rw [(gcd_loop_turn f |b| INT_MIN hmin0 (fun h => by
    have := h.2
    unfold INT_MIN at this
    omega)).1, htmod]
  obtain ⟨g, hg, _⟩ := gcd_loop_spec f INT_MIN |b| (by decide) hb'.1
    (fun _ => by omega) (fun h => by unfold INT_MIN at h; omega) (by omega)
  rw [hg, gcd_loop_mono f INT_MIN |b| g hg]

/-- Claim C12: the Euclidean loop of `gcd` terminates for every pair of `int`
arguments.  With `|b| + 1` tests of the condition the run is over under either
semantics; it returns a value for every pair under `wrapping`, and under `strict` for
every pair without `INT_MIN` (where `std::abs` overflows before the loop).  Each turn
replaces `(a, b)` by `(b, a % b)` with `|a % b| < |b|`, and with `b = 0` the loop
returns without evaluating a remainder. -/
theorem gcd_total (fuel : Nat) (a b : Int) (ha : in_int a) (hb : in_int b)
    (hf : b.natAbs < fuel) :
    (∃ g : Int, gcd .wrapping fuel a b = .returns g) ∧
    (∀ m : IntSemantics, gcd m fuel a b ≠ .out_of_fuel) ∧
    (a ≠ INT_MIN → b ≠ INT_MIN → ∃ g : Int, gcd .strict fuel a b = .returns g) ∧
    (∀ (k : Nat) (x y : Int), y ≠ 0 → ¬ (x = INT_MIN ∧ y = -1) →
      gcd_loop (k + 1) x y = gcd_loop k y (Int.tmod x y) ∧
        (Int.tmod x y).natAbs < y.natAbs) ∧
    (∀ (k : Nat) (x : Int), gcd_loop (k + 1) x 0 = .returns x) := by
  obtain ⟨g, hg, _⟩ := gcd_wrapping_spec fuel a b ha hb hf
  refine ⟨⟨g, hg⟩, ?_, ?_, fun k x y hy hxy => gcd_loop_turn k x y hy hxy,
    fun k x => gcd_loop_exit k x⟩
  · intro m
    cases m with
    | wrapping =>
      rw [hg]
      exact fun h => by cases h
    | strict =>
      by_cases hmin : a = INT_MIN ∨ b = INT_MIN
      · rw [gcd_strict_int_min fuel a b ha hmin]
        exact fun h => by cases h
      · push_neg at hmin
        rw [gcd_eq .strict fuel a b ha hb hmin.1 hmin.2 hf]
        exact fun h => by cases h
  · intro hamin hbmin
    exact ⟨_, gcd_eq .strict fuel a b ha hb hamin hbmin hf⟩

/-- Witness for `gcd_total` at `a = INT_MIN`, `b = 5` with 6 units of fuel. -/
theorem gcd_total_witness :
    in_int (-2147483648) ∧ in_int 5 ∧ (5 : Int).natAbs < 6 ∧
    ∃ g : Int, gcd .wrapping 6 (-2147483648) 5 = .returns g :=
  ⟨by decide, by decide, by decide,
    (gcd_total 6 (-2147483648) 5 (by decide) (by decide) (by decide)).1⟩

/-- Claim C18: `gcd` is commutative.  For every pair of `int` arguments and either
semantics the two orders of the arguments have the same outcome; under `wrapping` that
outcome is a returned value for every pair, and away from `INT_MIN` it is a returned
non-negative value under either semantics. -/
theorem gcd_commutative (m : IntSemantics) (fuel : Nat) (a b : Int)
    (ha : in_int a) (hb : in_int b) (hfa : a.natAbs < fuel) (hfb : b.natAbs < fuel) :
    gcd m fuel a b = gcd m fuel b a ∧
    (∃ g : Int, gcd .wrapping fuel a b = .returns g ∧ gcd .wrapping fuel b a = .returns g) ∧
    (a ≠ INT_MIN → b ≠ INT_MIN →
      ∃ g : Int, 0 ≤ g ∧ gcd m fuel a b = .returns g ∧ gcd m fuel b a = .returns g) := by
  have hno : a ≠ INT_MIN → b ≠ INT_MIN → ∀ m' : IntSemantics,
      gcd m' fuel a b = .returns ((Int.gcd a b : Nat) : Int) ∧
      gcd m' fuel b a = .returns ((Int.gcd a b : Nat) : Int) := by
    intro hamin hbmin m'
    refine ⟨gcd_eq m' fuel a b ha hb hamin hbmin hfb, ?_⟩
    rw [gcd_eq m' fuel b a hb ha hbmin hamin hfa, Int.gcd_comm]
  have hwrap : gcd .wrapping fuel a b = gcd .wrapping fuel b a := by
    by_cases hamin : a = INT_MIN
    · by_cases hbmin : b = INT_MIN
      · rw [hamin, hbmin]
      · subst hamin
        have : 2147483648 < fuel := by
          have : INT_MIN.natAbs = 2147483648 := rfl
          omega
        exact (gcd_wrapping_int_min_swap fuel b hb hbmin this).symm
    · by_cases hbmin : b = INT_MIN
      · subst hbmin
        have : 2147483648 < fuel := by
          have : INT_MIN.natAbs = 2147483648 := rfl
          omega
        exact gcd_wrapping_int_min_swap fuel a ha hamin this
      · rw [(hno hamin hbmin .wrapping).1, (hno hamin hbmin .wrapping).2]
  refine ⟨?_, ?_, ?_⟩
  · cases m with
    | wrapping => exact hwrap
    | strict =>
      by_cases hmin : a = INT_MIN ∨ b = INT_MIN
      · rw [gcd_strict_int_min fuel a b ha hmin, gcd_strict_int_min fuel b a hb hmin.symm]
      · push_neg at hmin
        rw [(hno hmin.1 hmin.2 .strict).1, (hno hmin.1 hmin.2 .strict).2]
  · obtain ⟨g, hg, _⟩ := gcd_wrapping_spec fuel a b ha hb hfb
    exact ⟨g, hg, hwrap ▸ hg⟩
  · intro hamin hbmin
    exact ⟨_, Int.ofNat_nonneg _, (hno hamin hbmin m).1, (hno hamin hbmin m).2⟩

/-- Witness for `gcd_commutative` at `a = INT_MIN`, `b = 6` with `2^31 + 1` units of
fuel: the two orders have the same outcome under `wrapping`. -/
theorem gcd_commutative_witness :
    in_int (-2147483648) ∧ in_int 6 ∧
    gcd .wrapping 2147483649 (-2147483648) 6 = gcd .wrapping 2147483649 6 (-2147483648) :=
  ⟨by decide, by decide,
    (gcd_commutative .wrapping 2147483649 (-2147483648) 6
      (by decide) (by decide) (by decide) (by decide)).1⟩

/-- Claim C15 (code defect at `a = -2147483648`): `gcd(a, b)` is meant to equal
`gcd(|b|, |a| mod |b|)` for `b != 0`, the Euclidean recursion on absolute values.
For `a = INT_MIN`, `b = 14`: `|a| mod |b| = 2`, `gcd(14, 2)` returns 2 and the
recursion of the specification gives 2, but `gcd(a, b)` never returns 2: `std::abs(a)`
overflows (undefined under `strict`), and with wraparound the loop returns `-2`. -/
theorem gcd_int_min_euclid_defect :
    (|(14 : Int)| = 14 ∧ |(-2147483648 : Int)| % |(14 : Int)| = 2) ∧
    euclid 2147483648 14 = 2 ∧
    (∀ (m : IntSemantics) (k : Nat), gcd m (k + 2) 14 2 = .returns 2) ∧
    (∀ fuel : Nat, gcd .strict fuel (-2147483648) 14 = .undefined) ∧
    (∀ k : Nat, gcd .wrapping (k + 3) (-2147483648) 14 = .returns (-2)) ∧
    (∀ (m : IntSemantics) (fuel : Nat), gcd m fuel (-2147483648) 14 ≠ .returns 2) := by
  refine ⟨⟨by decide, by decide⟩, ?_, ?_, fun fuel => rfl, fun k => rfl, ?_⟩
  · rw [euclid_eq_gcd]
    decide
  · intro m k
    cases m <;> rfl
  · intro m fuel h
    cases m with
    | strict =>
      have e : gcd .strict fuel (-2147483648) 14 = .undefined := rfl
      rw [e] at h
      cases h
    | wrapping =>
      rcases fuel with _ | _ | _ | k
      · cases h
      · cases h
      · cases h
      · have e : gcd .wrapping (k + 3) (-2147483648) 14 = .returns (-2) := rfl
        rw [e] at h
        cases h

/-! ## The demo driver (claim C19) -/

/-- Claim C19: the demo driver on its fixed inputs takes no failure path.  With fuel
for 12 tests of a loop condition or more, under either semantics, `main` returns the
exit status 0 and `results` holds exactly the 10 records listed, in call order. -/
theorem main_succeeds (m : IntSemantics) (k : Nat) :
    main m (k + 12) = .returns (0,
      [Record.factorial 5 120, Record.factorial 10 3628800, Record.factorial 12 479001600,
       Record.is_prime 2 true, Record.is_prime 17 true, Record.is_prime 25 false,
       Record.is_prime 97 true,
       Record.gcd 48 18 6, Record.gcd 100 35 5, Record.gcd 17 19 1]) ∧
    (∀ status results, main m (k + 12) = .returns (status, results) →
      status = 0 ∧ results.length = 10) := by
  have h : main m (k + 12) = .returns (0,
      [Record.factorial 5 120, Record.factorial 10 3628800, Record.factorial 12 479001600,
       Record.is_prime 2 true, Record.is_prime 17 true, Record.is_prime 25 false,
       Record.is_prime 97 true,
       Record.gcd 48 18 6, Record.gcd 100 35 5, Record.gcd 17 19 1]) := by
    cases m <;> rfl
  refine ⟨h, ?_⟩
  intro status results hs
  rw [h] at hs
  cases hs
  exact ⟨rfl, rfl⟩

end package_d
